import Mathlib

/-!
Verification development for the InnerEye-CreateDataset image-processing core
(`Source/projects/ImageProcessing`).  The C++ sources are shallowly embedded:

* float arithmetic is modelled by exact rationals `ℚ` where the code performs
  arithmetic on concrete pixel data (every operation appearing in the verified
  statements is exact in IEEE single precision as well), and by real numbers
  `ℝ` for the transcendental Gaussian-kernel construction;
* the pixel buffers handed to the library through the managed façade are
  contiguous, so byte-strided access collapses to element-index access and a
  buffer is a total function from element index to pixel value;
* fallible code (C++ `throw`) is embedded with `Except String`;
* out-of-bounds `std::vector` indexing (undefined behaviour) is embedded as an
  error.
-/

namespace CreateDataset

/-- Pointwise update of a total function, used to model a store to a buffer
or to a per-node field. -/
def updFn {ι : Type} [DecidableEq ι] {β : Type} (f : ι → β) (a : ι) (v : β) : ι → β :=
  fun x => if x = a then v else f x

theorem updFn_same {ι : Type} [DecidableEq ι] {β : Type} (f : ι → β) (a : ι) (v : β) :
    updFn f a v a = v := by
  simp [updFn]

theorem updFn_other {ι : Type} [DecidableEq ι] {β : Type} (f : ι → β) (a : ι) (v : β)
    (x : ι) (h : x ≠ a) : updFn f a v x = f x := by
  simp [updFn, h]

/-! ### Pixel codecs (`convolution.h`, `readerT`/`writerT` specialisations)

`readerT<T>` widens a pixel to `float`; `writerT<T>` writes a float back with
rounding and saturation.  `float` pixels are modelled as `ℚ`, `unsigned char`
as `ℕ` (valid range `[0,255]`), `short` as `ℤ` (valid range
`[-32768,32767]`). -/

/-- C-style cast of a float to an integer type: truncation toward zero. -/
def cTrunc (q : ℚ) : ℤ :=
  if 0 ≤ q then ⌊q⌋ else -⌊-q⌋

/-- `readerT<float>`: identity. -/
def readerFloat (x : ℚ) : ℚ := x

/-- `writerT<float>`: identity. -/
def writerFloat (x : ℚ) : ℚ := x

/-- `readerT<unsigned char>`: widen to float. -/
def readerUChar (x : ℕ) : ℚ := (x : ℚ)

/-- `writerT<unsigned char>`:
`*iterator = x <= 0.0f ? 0 : (x>255 ? 255 : (unsigned char)(x + 0.5f))`. -/
def writerUChar (x : ℚ) : ℕ :=
  if x ≤ 0 then 0 else if 255 < x then 255 else (cTrunc (x + 1/2)).toNat

/-- `readerT<short>`: widen to float. -/
def readerShort (x : ℤ) : ℚ := (x : ℚ)

/-- `writerT<short>`:
`*iterator = x <= minimum ? minimum : (x>maximum ? maximum : (short)(x + 0.5f))`
with `minimum = -32768`, `maximum = 32767`. -/
def writerShort (x : ℚ) : ℤ :=
  if x ≤ -32768 then -32768 else if 32767 < x then 32767 else cTrunc (x + 1/2)

/-! ### Reference 1D convolver (`convolve_reference`) -/

/-- `convolve_reference(input, width, kernel, kernelRadius, output)`:
`output[u] = Σ_{k<2r+1} kernel[k] * input[u+k]` for `u < width - 2r`.
The input row is a function from element index to value (the C++ code reads
it through a raw pointer); the kernel is a coefficient list read with
`kernel[k]`. -/
def convolve_reference (input : ℕ → ℚ) (width : ℕ) (kernel : List ℚ)
    (kernelRadius : ℕ) : List ℚ :=
  (List.range (width - 2 * kernelRadius)).map fun u =>
    (List.range (2 * kernelRadius + 1)).foldl
      (fun sum k => sum + kernel.getD k 0 * input (u + k)) 0

/-! ### Row convolver (`convolve` in `convolution.h`)

Per row `v`: gather `width` samples through the codec into a scratch row at
indices `[r, r+width)` (the scratch vector is zero-initialised), mirror the
edges, convolve with the reference convolver, scatter the results back through
the codec.  The OpenMP parallel loop writes disjoint rows, so its semantics is
the sequential fold over rows. -/

/-- The mirror-edge loop of `convolve`:
for `u ∈ [0, r)`, first `inputRow[r-1-u] = inputRow[r+u]`, then
`inputRow[r+width+u] = inputRow[r+width-1-u]`, in that order. -/
def mirrorEdges (row : ℕ → ℚ) (kernelRadius width : ℕ) : ℕ → ℚ :=
  (List.range kernelRadius).foldl
    (fun rw u =>
      let rw1 := updFn rw (kernelRadius - 1 - u) (rw (kernelRadius + u))
      updFn rw1 (kernelRadius + width + u) (rw1 (kernelRadius + width - 1 - u)))
    row

/-- The gathered scratch row before mirroring: samples of row `v` at indices
`[r, r+width)`, zeros elsewhere (zero-initialised `std::vector<float>`). -/
def gatherRow {α : Type} (reader : α → ℚ) (buffer : ℕ → α)
    (base hop stride v kernelRadius width : ℕ) : ℕ → ℚ :=
  fun j =>
    if kernelRadius ≤ j ∧ j < kernelRadius + width then
      reader (buffer (base + v * stride + (j - kernelRadius) * hop))
    else 0

/-- `convolve<T>(width, height, buffer, hop, stride, kernel, kernelRadius)`
acting on the element-indexed buffer starting at element offset `base`. -/
def convolve {α : Type} (reader : α → ℚ) (writer : ℚ → α)
    (width height : ℕ) (buffer : ℕ → α) (base hop stride : ℕ)
    (kernel : List ℚ) (kernelRadius : ℕ) : ℕ → α :=
  (List.range height).foldl
    (fun buf v =>
      let inputRow := mirrorEdges (gatherRow reader buf base hop stride v kernelRadius width)
        kernelRadius width
      let outputRow := convolve_reference inputRow (width + 2 * kernelRadius) kernel kernelRadius
      (List.range width).foldl
        (fun b u => updFn b (base + v * stride + u * hop) (writer (outputRow.getD u 0)))
        buf)
    buffer

/-- `convolve1d<T>(width, height, depth, buffer, leap, stride, hop, direction,
kernel, kernelRadius)`: dispatch the row convolver over the chosen axis;
an out-of-range direction throws `"Direction was out of range."`. -/
def convolve1d {α : Type} (reader : α → ℚ) (writer : ℚ → α)
    (width height depth : ℕ) (buffer : ℕ → α) (leap stride hop : ℕ)
    (direction : ℕ) (kernel : List ℚ) (kernelRadius : ℕ) :
    Except String (ℕ → α) :=
  match direction with
  | 0 => .ok ((List.range depth).foldl
      (fun buf z => convolve reader writer width height buf (z * leap) hop stride
        kernel kernelRadius) buffer)
  | 1 => .ok ((List.range depth).foldl
      (fun buf z => convolve reader writer height width buf (z * leap) stride hop
        kernel kernelRadius) buffer)
  | 2 => .ok ((List.range height).foldl
      (fun buf y => convolve reader writer depth width buf (y * stride) leap hop
        kernel kernelRadius) buffer)
  | _ => .error "Direction was out of range."

/-- The façade (`ConvolutionClr.cpp`) passes contiguous strides: for a
`W×H×D` volume of element type `T`, `hop = 1`, `stride = W`, `leap = W*H`
in element units. `convolve1d` for `float` pixels with those strides. -/
def convolve1dFloat (width height depth : ℕ) (buffer : ℕ → ℚ)
    (direction : ℕ) (kernel : List ℚ) (kernelRadius : ℕ) : Except String (ℕ → ℚ) :=
  convolve1d readerFloat writerFloat width height depth buffer
    (width * height) width 1 direction kernel kernelRadius

/-- `convolve1d` for `unsigned char` pixels with the façade's contiguous
strides. -/
def convolve1dUChar (width height depth : ℕ) (buffer : ℕ → ℕ)
    (direction : ℕ) (kernel : List ℚ) (kernelRadius : ℕ) : Except String (ℕ → ℕ) :=
  convolve1d readerUChar writerUChar width height depth buffer
    (width * height) width 1 direction kernel kernelRadius

/-- `convolve1d` for `short` pixels with the façade's contiguous strides. -/
def convolve1dShort (width height depth : ℕ) (buffer : ℕ → ℤ)
    (direction : ℕ) (kernel : List ℚ) (kernelRadius : ℕ) : Except String (ℕ → ℤ) :=
  convolve1d readerShort writerShort width height depth buffer
    (width * height) width 1 direction kernel kernelRadius

/-! ### `SseConvolver` constructor (`SseConvolver.h`)

Only the argument validation and kernel padding are modelled; the aligned SIMD
register setup has no observable effect on the verified statements.  Note that
the active code path of `convolve` uses `convolve_reference` — construction of
an `SseConvolver` is commented out. -/

/-- `SseConvolver::SseConvolver(kernel, kernel_length, length)`: throws
`"Kernel too big for image."` when `length <= kernel_length`, otherwise pads
the kernel with zeros to a multiple of four coefficients. -/
def sseConvolverInit (kernel : List ℚ) (kernelLength length : ℕ) :
    Except String (List ℚ) :=
  if length ≤ kernelLength then
    .error "Kernel too big for image."
  else
    let padBytes := (4 - kernelLength % 4) % 4
    .ok (kernel.take kernelLength ++ List.replicate padBytes 0)

/-! ### Gaussian kernel builder (`GaussianKernel1D.cpp`)

`GaussianKernel1D::GaussianKernel1D(sigma, tol)` first replaces `sigma` and
`tol` by their absolute values, then computes
`_radius = floor(sigma * sqrt(2 * log(1 / tol)))` and fills
`_data[_radius + x] = (1/(sigma*sqrt(2*PACKAGE_PI))) * exp(-0.5 * pow(x/sigma, 2))`
for `x ∈ [-radius, radius]`.  The float arithmetic is modelled over `ℝ`;
note the deliberate constant `PACKAGE_PI = 3.141592`. -/

/-- `const float PACKAGE_PI = 3.141592f`. -/
noncomputable def PACKAGE_PI : ℝ := 3.141592

/-- `_radius = static_cast<int>(floor(sigma * sqrt(2 * log(1 / tol))))`
after the constructor replaced `sigma` and `tol` by their absolute values. -/
noncomputable def gaussianRadius (sigma tol : ℝ) : ℤ :=
  ⌊|sigma| * Real.sqrt (2 * Real.log (1 / |tol|))⌋

/-- One kernel coefficient:
`(1 / (sigma*sqrt(2*PACKAGE_PI))) * exp(-0.5 * pow(x / sigma, 2))`. -/
noncomputable def gaussianCoeff (sigma : ℝ) (x : ℤ) : ℝ :=
  (1 / (sigma * Real.sqrt (2 * PACKAGE_PI))) * Real.exp (-(1/2) * ((x : ℝ) / sigma) ^ 2)

/-- `_data`, the coefficient vector of length `2*_radius + 1`; entry
`_radius + x` holds `gaussianCoeff |sigma| x`. -/
noncomputable def gaussianData (sigma tol : ℝ) : List ℝ :=
  (List.range (2 * (gaussianRadius sigma tol).toNat + 1)).map
    fun (k : ℕ) => gaussianCoeff |sigma| ((k : ℤ) - gaussianRadius sigma tol)

/-! ### Numeric bounds for the Gaussian kernel claims -/

theorem expNine_lt : Real.exp 9 < 8103.09 := by
  have h := Real.exp_one_lt_d9
  have h9 : Real.exp 1 ^ (9:ℕ) < (2.7182818286:ℝ)^(9:ℕ) := by
    apply pow_lt_pow_left₀ h (Real.exp_pos 1).le
    norm_num
  rw [Real.exp_one_pow] at h9
  norm_num at h9 ⊢
  nlinarith [h9]

theorem lt_expNine : (8103.08:ℝ) < Real.exp 9 := by
  have h := Real.exp_one_gt_d9
  have h9 : (2.7182818283:ℝ)^(9:ℕ) < Real.exp 1 ^ (9:ℕ) := by
    apply pow_lt_pow_left₀ h (by norm_num)
    norm_num
  rw [Real.exp_one_pow] at h9
  norm_num at h9 ⊢
  nlinarith [h9]

theorem expHalfNine_bounds : (90.017:ℝ) < Real.exp (9/2) ∧ Real.exp (9/2) < 90.0172 := by
  have hsq : Real.exp (9/2) * Real.exp (9/2) = Real.exp 9 := by
    rw [← Real.exp_add]; norm_num
  have hpos := Real.exp_pos (9/2 : ℝ)
  constructor
  · nlinarith [lt_expNine, hpos]
  · nlinarith [expNine_lt, hpos]

theorem log1000_lt : Real.log 1000 < 8 := by
  rw [Real.log_lt_iff_lt_exp (by norm_num)]
  have h := Real.exp_one_gt_d9
  have h8 : (2.7182818283:ℝ)^(8:ℕ) < Real.exp 1 ^ (8:ℕ) := by
    apply pow_lt_pow_left₀ h (by norm_num)
    norm_num
  rw [Real.exp_one_pow] at h8
  norm_num at h8 ⊢
  nlinarith [h8]

theorem le_log1000 : (9/2:ℝ) ≤ Real.log 1000 := by
  rw [Real.le_log_iff_exp_le (by norm_num)]
  nlinarith [expHalfNine_bounds.2, Real.exp_pos (9/2:ℝ)]

theorem sqrtPi2_bounds : (2.50662:ℝ) < Real.sqrt (2 * PACKAGE_PI) ∧
    Real.sqrt (2 * PACKAGE_PI) < 2.50663 := by
  unfold PACKAGE_PI
  constructor
  · rw [show ((2.50662:ℝ)) = √(2.50662^2) by rw [Real.sqrt_sq (by norm_num)]]
    apply Real.sqrt_lt_sqrt (by norm_num)
    norm_num
  · rw [Real.sqrt_lt' (by norm_num)]
    norm_num

theorem getD_map_range {α : Type} (f : ℕ → α) (n k : ℕ) (d : α) :
    ((List.range n).map f).getD k d = if k < n then f k else d := by
  by_cases h : k < n
  · rw [List.getD_eq_getElem _ _ (by simpa using h)]
    simp [h]
  · rw [List.getD_eq_default _ _ (by simpa using Nat.le_of_not_lt h)]
    simp [h]

theorem gaussianCoeff_neg (sigma : ℝ) (x : ℤ) :
    gaussianCoeff sigma (-x) = gaussianCoeff sigma x := by
  unfold gaussianCoeff
  push_cast
  ring_nf

theorem gaussianCoeff_le_center (sigma : ℝ) (hs : 0 < sigma) (x : ℤ) :
    gaussianCoeff sigma x ≤ gaussianCoeff sigma 0 := by
  unfold gaussianCoeff
  have hsq : (0:ℝ) < Real.sqrt (2 * PACKAGE_PI) := by
    rw [Real.sqrt_pos]; unfold PACKAGE_PI; norm_num
  have hfac : (0:ℝ) < 1 / (sigma * Real.sqrt (2 * PACKAGE_PI)) := by positivity
  apply mul_le_mul_of_nonneg_left _ hfac.le
  apply Real.exp_le_exp.mpr
  push_cast
  rw [zero_div]
  nlinarith [sq_nonneg ((x:ℝ) / sigma)]

theorem gaussianRadius_one : gaussianRadius 1 (1/1000) = 3 := by
  unfold gaussianRadius
  rw [Int.floor_eq_iff]
  rw [show |(1:ℝ)| = 1 by norm_num, show |(1/1000:ℝ)| = 1/1000 by norm_num,
    show (1:ℝ)/(1/1000) = 1000 by norm_num, one_mul]
  constructor
  · rw [show ((3:ℤ):ℝ) = 3 by norm_num]
    rw [Real.le_sqrt (by norm_num) (by nlinarith [le_log1000])]
    nlinarith [le_log1000]
  · rw [show ((3:ℤ):ℝ) + 1 = 4 by norm_num]
    rw [Real.sqrt_lt' (by norm_num)]
    nlinarith [log1000_lt]

theorem gaussianData_one_getD (k : ℕ) (hk : k < 7) :
    (gaussianData 1 (1/1000)).getD k 0 = gaussianCoeff 1 ((k:ℤ) - 3) := by
  unfold gaussianData
  rw [gaussianRadius_one]
  rw [show |(1:ℝ)| = 1 by norm_num]
  rw [show (2 * (3:ℤ).toNat + 1) = 7 by decide]
  rw [getD_map_range]
  simp [hk]

theorem center_coeff_val : gaussianCoeff 1 0 = 1 / Real.sqrt (2 * PACKAGE_PI) := by
  unfold gaussianCoeff
  norm_num

theorem end_coeff_val :
    gaussianCoeff 1 (-3) = (1 / Real.sqrt (2 * PACKAGE_PI)) * (Real.exp (9/2))⁻¹ := by
  unfold gaussianCoeff
  rw [show (-(1/2) * (((-3:ℤ):ℝ) / 1) ^ 2) = -(9/2) by push_cast; ring]
  rw [Real.exp_neg]
  norm_num

theorem inv_sqrtPi2_bounds : (0.398941:ℝ) < 1 / Real.sqrt (2 * PACKAGE_PI) ∧
    1 / Real.sqrt (2 * PACKAGE_PI) < 0.398944 := by
  obtain ⟨h1, h2⟩ := sqrtPi2_bounds
  have hs : (0:ℝ) < Real.sqrt (2 * PACKAGE_PI) := by linarith
  constructor
  · have := one_div_lt_one_div_of_lt hs h2
    calc (0.398941:ℝ) < 1/2.50663 := by norm_num
      _ < _ := this
  · have := one_div_lt_one_div_of_lt (by norm_num : (0:ℝ) < 2.50662) h1
    calc 1 / Real.sqrt (2 * PACKAGE_PI) < 1/2.50662 := this
      _ < 0.398944 := by norm_num

theorem center_coeff_approx : |gaussianCoeff 1 0 - 0.39894| < 1/100000 := by
  rw [center_coeff_val, abs_lt]
  obtain ⟨h1, h2⟩ := inv_sqrtPi2_bounds
  constructor <;> nlinarith

theorem end_coeff_approx : |gaussianCoeff 1 (-3) - 0.00443| < 1/100000 := by
  rw [end_coeff_val, abs_lt]
  obtain ⟨h1, h2⟩ := inv_sqrtPi2_bounds
  obtain ⟨h3, h4⟩ := expHalfNine_bounds
  have he : (0:ℝ) < Real.exp (9/2) := Real.exp_pos _
  have h5 : (Real.exp (9/2))⁻¹ < 1/90.017 := by
    rw [inv_eq_one_div]
    exact one_div_lt_one_div_of_lt (by norm_num) h3
  have h6 : (1/90.0172:ℝ) < (Real.exp (9/2))⁻¹ := by
    rw [inv_eq_one_div]
    exact one_div_lt_one_div_of_lt he h4
  have hx : (0:ℝ) < 1 / Real.sqrt (2 * PACKAGE_PI) := by linarith
  have hy : (0:ℝ) < (Real.exp (9/2))⁻¹ := by positivity
  constructor <;> nlinarith

theorem gaussianRadius_nonneg (sigma tol : ℝ) : 0 ≤ gaussianRadius sigma tol := by
  unfold gaussianRadius
  apply Int.floor_nonneg.mpr
  positivity

theorem gaussianData_length (sigma tol : ℝ) :
    (gaussianData sigma tol).length = 2 * (gaussianRadius sigma tol).toNat + 1 := by
  unfold gaussianData
  simp

theorem gaussianData_getD (sigma tol : ℝ) (k : ℕ)
    (hk : k < 2 * (gaussianRadius sigma tol).toNat + 1) :
    (gaussianData sigma tol).getD k 0 =
      gaussianCoeff |sigma| ((k : ℤ) - gaussianRadius sigma tol) := by
  unfold gaussianData
  rw [getD_map_range]
  simp [hk]

theorem gaussianCoeff_nonneg (sigma : ℝ) (hs : 0 ≤ sigma) (x : ℤ) :
    0 ≤ gaussianCoeff sigma x := by
  unfold gaussianCoeff
  have : (0:ℝ) ≤ Real.sqrt (2 * PACKAGE_PI) := Real.sqrt_nonneg _
  positivity

/-- C4: for every `σ > 0` and `tol ∈ (0,1)` the kernel has odd length
`2⌊σ√(2 ln(1/tol))⌋+1`, is exactly symmetric about its centre, and the centre
coefficient is maximal; for `σ = 1`, `tol = 1/1000` the radius is `3`
(length 7), the centre coefficient is `0.39894` and the end coefficients are
`0.00443` (both up to `10⁻⁵`), and the two end coefficients are exactly
equal. -/
theorem gaussian_kernel_shape (sigma tol : ℝ) (hs : 0 < sigma) (ht0 : 0 < tol)
    (ht1 : tol < 1) :
    ((gaussianData sigma tol).length
        = 2 * (⌊sigma * Real.sqrt (2 * Real.log (1 / tol))⌋).toNat + 1
      ∧ (∀ k, k ≤ 2 * (gaussianRadius sigma tol).toNat →
          (gaussianData sigma tol).getD k 0
            = (gaussianData sigma tol).getD (2 * (gaussianRadius sigma tol).toNat - k) 0)
      ∧ (∀ k, (gaussianData sigma tol).getD k 0
            ≤ (gaussianData sigma tol).getD (gaussianRadius sigma tol).toNat 0))
    ∧ (gaussianRadius 1 (1/1000) = 3
      ∧ (gaussianData 1 (1/1000)).length = 7
      ∧ |(gaussianData 1 (1/1000)).getD 3 0 - 0.39894| < 1/100000
      ∧ |(gaussianData 1 (1/1000)).getD 0 0 - 0.00443| < 1/100000
      ∧ (gaussianData 1 (1/1000)).getD 0 0 = (gaussianData 1 (1/1000)).getD 6 0) := by
  have habs : |sigma| = sigma := abs_of_pos hs
  have habt : |tol| = tol := abs_of_pos ht0
  refine ⟨⟨?_, ?_, ?_⟩, ?_, ?_, ?_, ?_, ?_⟩
  · rw [gaussianData_length]
    unfold gaussianRadius
    rw [habs, habt]
  · intro k hk
    set r := (gaussianRadius sigma tol).toNat with hr
    rw [gaussianData_getD _ _ _ (by omega), gaussianData_getD _ _ _ (by omega)]
    have hcast : ((2 * r - k : ℕ) : ℤ) = 2 * (r : ℤ) - (k : ℤ) := by omega
    rw [hcast]
    have hrz : (r : ℤ) = gaussianRadius sigma tol := by
      rw [hr, Int.toNat_of_nonneg (gaussianRadius_nonneg sigma tol)]
    rw [hrz]
    rw [show 2 * gaussianRadius sigma tol - (k:ℤ) - gaussianRadius sigma tol
        = -((k:ℤ) - gaussianRadius sigma tol) by ring]
    rw [gaussianCoeff_neg]
  · intro k
    set r := (gaussianRadius sigma tol).toNat with hr
    have hrz : (r : ℤ) = gaussianRadius sigma tol := by
      rw [hr, Int.toNat_of_nonneg (gaussianRadius_nonneg sigma tol)]
    have hcenter : (gaussianData sigma tol).getD r 0 = gaussianCoeff |sigma| 0 := by
      rw [gaussianData_getD _ _ _ (by omega)]
      rw [hrz]
      norm_num
    by_cases hk : k < 2 * r + 1
    · rw [gaussianData_getD _ _ _ hk, hcenter]
      exact gaussianCoeff_le_center _ (by rw [habs]; exact hs) _
    · rw [List.getD_eq_default _ _ (by rw [gaussianData_length]; omega), hcenter]
      exact gaussianCoeff_nonneg _ (abs_nonneg _) _
  · exact gaussianRadius_one
  · rw [gaussianData_length, gaussianRadius_one]
    decide
  · rw [gaussianData_one_getD 3 (by norm_num), show ((3:ℕ):ℤ) - 3 = 0 by norm_num]
    exact center_coeff_approx
  · rw [gaussianData_one_getD 0 (by norm_num), show ((0:ℕ):ℤ) - 3 = -3 by norm_num]
    exact end_coeff_approx
  · rw [gaussianData_one_getD 0 (by norm_num), gaussianData_one_getD 6 (by norm_num)]
    rw [show ((0:ℕ):ℤ) - 3 = -3 by norm_num, show ((6:ℕ):ℤ) - 3 = 3 by norm_num]
    exact gaussianCoeff_neg 1 3

/-- C4 witness at `σ = 1`, `tol = 1/1000`. -/
theorem gaussian_kernel_shape_witness :
    (0:ℝ) < 1 ∧ (0:ℝ) < 1/1000 ∧ (1/1000:ℝ) < 1 ∧
    (((gaussianData 1 (1/1000)).length
        = 2 * (⌊(1:ℝ) * Real.sqrt (2 * Real.log (1 / (1/1000)))⌋).toNat + 1
      ∧ (∀ k, k ≤ 2 * (gaussianRadius 1 (1/1000)).toNat →
          (gaussianData 1 (1/1000)).getD k 0
            = (gaussianData 1 (1/1000)).getD (2 * (gaussianRadius 1 (1/1000)).toNat - k) 0)
      ∧ (∀ k, (gaussianData 1 (1/1000)).getD k 0
            ≤ (gaussianData 1 (1/1000)).getD (gaussianRadius 1 (1/1000)).toNat 0))
    ∧ (gaussianRadius 1 (1/1000) = 3
      ∧ (gaussianData 1 (1/1000)).length = 7
      ∧ |(gaussianData 1 (1/1000)).getD 3 0 - 0.39894| < 1/100000
      ∧ |(gaussianData 1 (1/1000)).getD 0 0 - 0.00443| < 1/100000
      ∧ (gaussianData 1 (1/1000)).getD 0 0 = (gaussianData 1 (1/1000)).getD 6 0)) :=
  ⟨by norm_num, by norm_num, by norm_num,
    gaussian_kernel_shape 1 (1/1000) (by norm_num) (by norm_num) (by norm_num)⟩

/-- C7: at `σ = 0` the kernel builder raises no error and returns a radius-0
kernel whose single coefficient is the result of the division by zero
`(1/(0·√(2π)))·exp(-½·(0/0)²)`: `NaN` in IEEE arithmetic, `0` in this
real-number model (where division by zero yields zero) — in either model it
is not the identity coefficient `1`, contradicting the specification's
requirement to reject `σ = 0` or substitute the identity kernel. -/
theorem gaussian_sigma_zero_divides :
    gaussianRadius 0 (1/1000) = 0
    ∧ (gaussianData 0 (1/1000)).length = 1
    ∧ (gaussianData 0 (1/1000)).getD 0 0 = 0
    ∧ (gaussianData 0 (1/1000)).getD 0 0 ≠ 1 := by
  have hr : gaussianRadius 0 (1/1000) = 0 := by
    unfold gaussianRadius
    norm_num
  refine ⟨hr, ?_, ?_, ?_⟩
  · rw [gaussianData_length, hr]
    decide
  · rw [gaussianData_getD _ _ _ (by rw [hr]; decide), hr]
    unfold gaussianCoeff
    norm_num
  · rw [gaussianData_getD _ _ _ (by rw [hr]; decide), hr]
    unfold gaussianCoeff
    norm_num

/-! ### Disjoint set (`Set<U>` in `connectedComponents.h`)

The C++ class keeps one node per voxel, addressed by pointer.  The embedding
indexes nodes by an arbitrary type `ι` (instantiated with voxel coordinates)
and keeps the per-node fields `rank_`, `hasLabel_`, `label_`, `parent_` as
total functions; `parent_ = none` is the C++ null parent.  `U`, the label
type, is `unsigned short` at the façade and is modelled as `ℕ` with explicit
ceiling `65535`.  All nodes are zero-initialised. -/

structure UFState (ι : Type) where
  rank_ : ι → ℕ
  hasLabel_ : ι → Bool
  label_ : ι → ℕ
  parent_ : ι → Option ι

/-- Zero-initialised node array: `rank 0`, `no label`, `label 0`, `null parent`. -/
def UFState.init (ι : Type) : UFState ι :=
  ⟨fun _ => 0, fun _ => false, fun _ => 0, fun _ => none⟩

/-- `numeric_limits<unsigned short>::max()`, the ceiling of `RANK_TYPE`. -/
def RANK_MAX : ℕ := 65535

/-- `Set::find()`: `if (parent_ == 0) return this; else { parent_ =
parent_->find(); return parent_; }` — returns the root and path-compresses.
The C++ recursion terminates because parent chains are acyclic; the embedding
makes the recursion structural on a `fuel` argument, and every use in this
file supplies fuel exceeding the maximal rank, which `find_spec` shows is
sufficient for full execution. -/
def UFState.find {ι : Type} [DecidableEq ι] : ℕ → UFState ι → ι → UFState ι × ι
  | 0, s, i => (s, i)
  | fuel + 1, s, i =>
    match s.parent_ i with
    | none => (s, i)
    | some p =>
      let sr := UFState.find fuel s p
      ({ sr.1 with parent_ := updFn sr.1.parent_ i (some sr.2) }, sr.2)

/-- `Set::unite(x, y)`: find both roots; attach the lower-rank root under the
higher-rank root; on equal rank (and distinct roots) attach `y`'s root under
`x`'s root and increment `x`'s root's rank, first throwing
`"Connected components graph overflow."` if that rank is already at the
`unsigned short` ceiling (the parent is linked before the check, as in the
source). -/
def UFState.unite {ι : Type} [DecidableEq ι] (fuel : ℕ) (s : UFState ι) (x y : ι) :
    Except String (UFState ι) :=
  let f1 := s.find fuel x
  let xRoot := f1.2
  let f2 := f1.1.find fuel y
  let s2 := f2.1
  let yRoot := f2.2
  if s2.rank_ xRoot > s2.rank_ yRoot then
    .ok { s2 with parent_ := updFn s2.parent_ yRoot (some xRoot) }
  else if s2.rank_ xRoot < s2.rank_ yRoot then
    .ok { s2 with parent_ := updFn s2.parent_ xRoot (some yRoot) }
  else if xRoot ≠ yRoot then
    let s3 : UFState ι := { s2 with parent_ := updFn s2.parent_ yRoot (some xRoot) }
    if s3.rank_ xRoot = RANK_MAX then
      .error "Connected components graph overflow."
    else
      .ok { s3 with rank_ := updFn s3.rank_ xRoot (s3.rank_ xRoot + 1) }
  else
    .ok s2

/-! Specification-level notions about a disjoint-set state. -/

/-- One parent link. -/
def parentRel {ι : Type} (s : UFState ι) (i j : ι) : Prop :=
  s.parent_ i = some j

/-- `r` is the root of `i`: reachable along parent links and parentless. -/
def RootOf {ι : Type} (s : UFState ι) (i r : ι) : Prop :=
  Relation.ReflTransGen (parentRel s) i r ∧ s.parent_ r = none

/-- Ranks strictly increase along parent links (the union-by-rank invariant;
it gives acyclicity and bounds every chain length by the maximal rank). -/
def RankIncr {ι : Type} (s : UFState ι) : Prop :=
  ∀ i j, s.parent_ i = some j → s.rank_ i < s.rank_ j

/-- Two nodes lie in the same set. -/
def sameRoot {ι : Type} (s : UFState ι) (a b : ι) : Prop :=
  ∃ r, RootOf s a r ∧ RootOf s b r

/-! ### Connected components (`findConnectedComponents3d`)

The façade passes contiguous strides, so the input volume is a function from
voxel coordinates `(u, v, w)` to `unsigned char` values (modelled as `ℕ`);
the node array has one node per voxel.  The label volume maps coordinates to
`unsigned short` labels (`ℕ` with ceiling `65535`). -/

abbrev Coord : Type := ℕ × ℕ × ℕ

/-- Voxel coordinates inside a `width × height × depth` volume. -/
def inVolume (width height depth : ℕ) (p : Coord) : Prop :=
  p.1 < width ∧ p.2.1 < height ∧ p.2.2 < depth

instance (width height depth : ℕ) (p : Coord) :
    Decidable (inVolume width height depth p) := by
  unfold inVolume
  infer_instance

/-- `du = { 0, -1, 0 }`. -/
def du : List ℤ := [0, -1, 0]

/-- `dv = { 0, 0, -1 }`. -/
def dv : List ℤ := [0, 0, -1]

/-- `dw = { -1, 0, 0 }`. -/
def dw : List ℤ := [-1, 0, 0]

/-- Neighbour `i ∈ {0,1,2}` of voxel `p` (back, left, up), with the six
in-range checks of the source
(`u+du[i] >= 0 && u+du[i] < width && ... && w+dw[i] < depth`). -/
def nbr (width height depth : ℕ) (p : Coord) (i : ℕ) : Option Coord :=
  let u : ℤ := (p.1 : ℤ) + du.getD i 0
  let v : ℤ := (p.2.1 : ℤ) + dv.getD i 0
  let w : ℤ := (p.2.2 : ℤ) + dw.getD i 0
  if 0 ≤ u ∧ u < width ∧ 0 ≤ v ∧ v < height ∧ 0 ≤ w ∧ w < depth then
    some (u.toNat, v.toNat, w.toNat)
  else
    none

/-- Scan order of pass 1 and pass 2: `w` outermost, then `v`, then `u`. -/
def scanOrder (width height depth : ℕ) : List Coord :=
  (List.range depth).flatMap fun w =>
    (List.range height).flatMap fun v =>
      (List.range width).map fun u => (u, v, w)

/-- Fuel supplied to every `find` inside the components engine: pass 1
performs at most `3·width·height·depth` calls to `unite`, each of which
increments at most one rank by one, so all ranks stay below this bound. -/
def ccFuel (width height depth : ℕ) : ℕ :=
  3 * (width * height * depth) + 1

/-- Pass 1 body for one voxel `p`: skip background voxels; for each of the
three already-visited face neighbours that is in range and has the same input
value, `unite` the two voxels' nodes. -/
def pass1Step (width height depth : ℕ) (img : Coord → ℕ) (backgroundColor : ℕ)
    (s : UFState Coord) (p : Coord) : Except String (UFState Coord) :=
  if img p ≠ backgroundColor then
    (List.range 3).foldlM
      (fun s i =>
        match nbr width height depth p i with
        | some q =>
          if img q = img p then UFState.unite (ccFuel width height depth) s p q
          else pure s
        | none => pure s)
      s
  else
    pure s

/-- Pass 1: forest construction over the whole volume in scan order, starting
from the zero-initialised node array. -/
def pass1 (width height depth : ℕ) (img : Coord → ℕ) (backgroundColor : ℕ) :
    Except String (UFState Coord) :=
  (scanOrder width height depth).foldlM
    (pass1Step width height depth img backgroundColor)
    (UFState.init Coord)

/-- `ComponentStatistics<T, U>`: a 32-bit pixel count and the input value of
the first voxel that claimed the label. -/
structure ComponentStatistics where
  pixelCount_ : ℕ
  inputLabel_ : ℕ
deriving DecidableEq

/-- `numeric_limits<U>::max()` for the façade's label type `unsigned short`. -/
def U_MAX : ℕ := 65535

/-- `statistics[idx].pixelCount_++`; an out-of-bounds index (undefined
behaviour on `std::vector`) is modelled as an error. -/
def bumpCount (stats : List ComponentStatistics) (idx : ℕ) :
    Except String (List ComponentStatistics) :=
  if h : idx < stats.length then
    .ok (stats.set idx
      { stats.get ⟨idx, h⟩ with pixelCount_ := (stats.get ⟨idx, h⟩).pixelCount_ + 1 })
  else
    .error "statistics index out of range"

/-- State of pass 2: the node forest, the running label counter, the
statistics vector, and the output label volume. -/
structure Pass2State where
  uf : UFState Coord
  label : ℕ
  statistics : List ComponentStatistics
  out : Coord → ℕ

/-- Initialisation of pass 2:
`U label = 0; if (label == backgroundLabel) { label++; statistics.push_back({0, backgroundColor}); }`. -/
def pass2Init (backgroundColor backgroundLabel : ℕ) (uf : UFState Coord)
    (out0 : Coord → ℕ) : Pass2State :=
  if 0 = backgroundLabel then
    ⟨uf, 1, [⟨0, backgroundColor⟩], out0⟩
  else
    ⟨uf, 0, [], out0⟩

/-- Pass 2 body for one voxel `p`: a background voxel is written the reserved
background label; a foreground voxel is written its root's label, the root
being assigned the next counter value (with the `TooManyComponents` ceiling
check and the skip over the reserved background label) if it has none yet.
Afterwards the written label's pixel count is incremented. -/
def pass2Step (img : Coord → ℕ) (backgroundColor backgroundLabel fuel : ℕ)
    (st : Pass2State) (p : Coord) : Except String Pass2State :=
  if img p = backgroundColor then
    match bumpCount st.statistics backgroundLabel with
    | .ok stats => .ok ⟨st.uf, st.label, stats, updFn st.out p backgroundLabel⟩
    | .error e => .error e
  else
    let fr := (st.uf).find fuel p
    let root := fr.2
    let assigned : Except String (UFState Coord × ℕ × List ComponentStatistics) :=
      if fr.1.hasLabel_ root = false then
        let uf1 : UFState Coord :=
          { fr.1 with label_ := updFn fr.1.label_ root st.label,
                      hasLabel_ := updFn fr.1.hasLabel_ root true }
        if st.label = U_MAX then
          .error "Too many components during connected component analysis."
        else
          let stats1 := st.statistics ++ [⟨0, img p⟩]
          if st.label + 1 = backgroundLabel then
            if st.label + 1 = U_MAX then
              .error "Too many components during connected component analysis."
            else
              .ok (uf1, st.label + 2, stats1 ++ [⟨0, backgroundColor⟩])
          else
            .ok (uf1, st.label + 1, stats1)
      else
        .ok (fr.1, st.label, st.statistics)
    match assigned with
    | .error e => .error e
    | .ok (uf, lab, stats) =>
      match bumpCount stats (uf.label_ root) with
      | .ok stats2 => .ok ⟨uf, lab, stats2, updFn st.out p (uf.label_ root)⟩
      | .error e => .error e

/-- `findConnectedComponents3d(width, height, depth, inputBuffer, ...,
backgroundColor, outputBuffer, ..., backgroundLabel)`: pass 1 builds the
forest, pass 2 labels voxels and aggregates statistics.  `out0` is the
caller-supplied output buffer's prior contents. -/
def findConnectedComponents3d (width height depth : ℕ) (img : Coord → ℕ)
    (backgroundColor : ℕ) (out0 : Coord → ℕ) (backgroundLabel : ℕ) :
    Except String ((Coord → ℕ) × List ComponentStatistics) :=
  match pass1 width height depth img backgroundColor with
  | .error e => .error e
  | .ok uf =>
    match (scanOrder width height depth).foldlM
        (pass2Step img backgroundColor backgroundLabel (ccFuel width height depth))
        (pass2Init backgroundColor backgroundLabel uf out0) with
    | .error e => .error e
    | .ok st => .ok (st.out, st.statistics)

/-- The labelled output volume of a successful `findConnectedComponents3d`
call (all-zero when the call fails). -/
def fccOut (width height depth : ℕ) (img : Coord → ℕ) (backgroundColor : ℕ)
    (out0 : Coord → ℕ) (backgroundLabel : ℕ) : Coord → ℕ :=
  match findConnectedComponents3d width height depth img backgroundColor out0 backgroundLabel with
  | .ok r => r.1
  | .error _ => fun _ => 0

/-- The statistics vector of a successful `findConnectedComponents3d` call
(empty when the call fails). -/
def fccStats (width height depth : ℕ) (img : Coord → ℕ) (backgroundColor : ℕ)
    (out0 : Coord → ℕ) (backgroundLabel : ℕ) : List ComponentStatistics :=
  match findConnectedComponents3d width height depth img backgroundColor out0 backgroundLabel with
  | .ok r => r.2
  | .error _ => []

/-- Whether the `findConnectedComponents3d` call returned normally. -/
def fccOk (width height depth : ℕ) (img : Coord → ℕ) (backgroundColor : ℕ)
    (out0 : Coord → ℕ) (backgroundLabel : ℕ) : Bool :=
  match findConnectedComponents3d width height depth img backgroundColor out0 backgroundLabel with
  | .ok _ => true
  | .error _ => false


/-! ### Disjoint-set lemmas -/

theorem rootOf_congr {ι : Type} {s t : UFState ι} (h : s.parent_ = t.parent_) :
    RootOf s = RootOf t := by
  unfold RootOf parentRel
  rw [h]

theorem rtg_det_root {ι : Type} {s : UFState ι} {i r : ι}
    (hc : Relation.ReflTransGen (parentRel s) i r) (hr : s.parent_ r = none) :
    ∀ {r' : ι}, Relation.ReflTransGen (parentRel s) i r' → s.parent_ r' = none → r = r' := by
  induction hc using Relation.ReflTransGen.head_induction_on with
  | refl =>
    intro r' hc' hr'
    rcases Relation.ReflTransGen.cases_head hc' with h1 | ⟨c, hstep, htail⟩
    · exact h1
    · unfold parentRel at hstep
      rw [hr] at hstep
      cases hstep
  | head hstep htail ih =>
    intro r' hc' hr'
    rcases Relation.ReflTransGen.cases_head hc' with h1 | ⟨c, hstep', htail'⟩
    · subst h1
      unfold parentRel at hstep
      rw [hr'] at hstep
      cases hstep
    · unfold parentRel at hstep hstep'
      rw [hstep] at hstep'
      cases hstep'
      exact ih htail' hr'

theorem rootOf_unique {ι : Type} {s : UFState ι} {i r r' : ι}
    (h : RootOf s i r) (h' : RootOf s i r') : r = r' :=
  rtg_det_root h.1 h.2 h'.1 h'.2

theorem rank_le_of_rtg {ι : Type} {s : UFState ι} (hR : RankIncr s) {i j : ι}
    (h : Relation.ReflTransGen (parentRel s) i j) : s.rank_ i ≤ s.rank_ j := by
  induction h with
  | refl => exact le_rfl
  | tail hab hbc ih =>
    have := hR _ _ hbc
    omega

theorem rank_lt_of_rtg_ne {ι : Type} {s : UFState ι} (hR : RankIncr s) {i j : ι}
    (h : Relation.ReflTransGen (parentRel s) i j) (hne : i ≠ j) :
    s.rank_ i < s.rank_ j := by
  rcases Relation.ReflTransGen.cases_head h with h1 | ⟨c, hstep, htail⟩
  · exact absurd h1 hne
  · have h1 := hR _ _ hstep
    have h2 := rank_le_of_rtg hR htail
    omega

theorem rootOf_exists_aux {ι : Type} {s : UFState ι} (hR : RankIncr s) (B : ℕ)
    (hB : ∀ j, s.rank_ j ≤ B) :
    ∀ gas i, B < s.rank_ i + gas → ∃ r, RootOf s i r := by
  intro gas
  induction gas with
  | zero =>
    intro i hi
    have := hB i
    omega
  | succ gas ih =>
    intro i hi
    cases hp : s.parent_ i with
    | none => exact ⟨i, Relation.ReflTransGen.refl, hp⟩
    | some p =>
      have hlt := hR i p hp
      obtain ⟨r, hc, hr⟩ := ih p (by omega)
      exact ⟨r, Relation.ReflTransGen.head hp hc, hr⟩

theorem rootOf_exists {ι : Type} {s : UFState ι} (hR : RankIncr s) (B : ℕ)
    (hB : ∀ j, s.rank_ j ≤ B) (i : ι) : ∃ r, RootOf s i r :=
  rootOf_exists_aux hR B hB (B + 1) i (by omega)

theorem redirect_rootOf {ι : Type} [DecidableEq ι] {s : UFState ι} {j r : ι}
    (hroot : s.parent_ r = none) (hjr : Relation.ReflTransGen (parentRel s) j r)
    (hne : j ≠ r) (k m : ι) :
    RootOf { s with parent_ := updFn s.parent_ j (some r) } k m ↔ RootOf s k m := by
  set s' : UFState ι := { s with parent_ := updFn s.parent_ j (some r) } with hs'
  have hpar : ∀ a, s'.parent_ a = if a = j then some r else s.parent_ a := by
    intro a
    by_cases ha : a = j
    · subst ha
      simp [hs', updFn]
    · simp [hs', updFn, ha]
  have hmj : ∀ {m}, s'.parent_ m = none → m ≠ j ∧ s.parent_ m = none := by
    intro m hm
    rw [hpar] at hm
    by_cases h : m = j
    · rw [if_pos h] at hm
      cases hm
    · rw [if_neg h] at hm
      exact ⟨h, hm⟩
  have lift : ∀ {a b : ι}, Relation.ReflTransGen (parentRel s') a b →
      Relation.ReflTransGen (parentRel s) a b := by
    intro a b h
    induction h with
    | refl => exact Relation.ReflTransGen.refl
    | @tail b c hab hbc ih =>
      unfold parentRel at hbc
      rw [hpar] at hbc
      by_cases hb : b = j
      · rw [if_pos hb] at hbc
        cases hbc
        rw [hb] at ih
        exact Relation.ReflTransGen.trans ih hjr
      · rw [if_neg hb] at hbc
        exact Relation.ReflTransGen.tail ih hbc
  constructor
  · rintro ⟨hc, hm⟩
    obtain ⟨hmne, hmnone⟩ := hmj hm
    exact ⟨lift hc, hmnone⟩
  · rintro ⟨hc, hm⟩
    have hmne : m ≠ j := by
      intro h
      rw [h] at hm
      rcases Relation.ReflTransGen.cases_head hjr with h1 | ⟨c, hstep, _⟩
      · exact hne h1
      · unfold parentRel at hstep
        rw [hm] at hstep
        cases hstep
    induction hc using Relation.ReflTransGen.head_induction_on with
    | refl =>
      refine ⟨Relation.ReflTransGen.refl, ?_⟩
      rw [hpar, if_neg hmne, hm]
    | @head a c hstep htail ih =>
      by_cases ha : a = j
      · have hm' : m = r := by
          have h1 : RootOf s j m := by
            rw [← ha]
            exact ⟨Relation.ReflTransGen.head hstep htail, hm⟩
          exact rootOf_unique h1 ⟨hjr, hroot⟩
        subst hm'
        refine ⟨Relation.ReflTransGen.single ?_, ?_⟩
        · unfold parentRel
          rw [hpar, if_pos ha]
        · rw [hpar, if_neg (Ne.symm hne), hroot]
      · obtain ⟨ihc, ihm⟩ := ih
        refine ⟨Relation.ReflTransGen.head ?_ ihc, ihm⟩
        unfold parentRel
        rw [hpar, if_neg ha]
        exact hstep

theorem redirect_rankIncr {ι : Type} [DecidableEq ι] {s : UFState ι} {j r : ι}
    (hR : RankIncr s) (hroot : s.parent_ r = none)
    (hjr : Relation.ReflTransGen (parentRel s) j r) (hne : j ≠ r) :
    RankIncr { s with parent_ := updFn s.parent_ j (some r) } := by
  intro a b hab
  simp only [updFn] at hab
  by_cases ha : a = j
  · rw [if_pos ha] at hab
    cases hab
    subst ha
    exact rank_lt_of_rtg_ne hR hjr hne
  · rw [if_neg ha] at hab
    exact hR a b hab

theorem find_spec {ι : Type} [DecidableEq ι] :
    ∀ (fuel : ℕ) (s : UFState ι) (i : ι), RankIncr s →
    (∀ j, s.rank_ j < s.rank_ i + fuel) →
    RootOf s i (UFState.find fuel s i).2
    ∧ (UFState.find fuel s i).1.rank_ = s.rank_
    ∧ (UFState.find fuel s i).1.hasLabel_ = s.hasLabel_
    ∧ (UFState.find fuel s i).1.label_ = s.label_
    ∧ RankIncr (UFState.find fuel s i).1
    ∧ (∀ j, Relation.ReflTransGen (parentRel s) i j →
        j = (UFState.find fuel s i).2
        ∨ (UFState.find fuel s i).1.parent_ j = some (UFState.find fuel s i).2)
    ∧ (∀ j, ¬ Relation.ReflTransGen (parentRel s) i j →
        (UFState.find fuel s i).1.parent_ j = s.parent_ j)
    ∧ (∀ k m, RootOf (UFState.find fuel s i).1 k m ↔ RootOf s k m) := by
  intro fuel
  induction fuel with
  | zero =>
    intro s i hR hf
    have := hf i
    omega
  | succ fuel ih =>
    intro s i hR hf
    cases hp : s.parent_ i with
    | none =>
      have hS : UFState.find (fuel + 1) s i = (s, i) := by
        simp only [UFState.find, hp]
      rw [hS]
      refine ⟨⟨Relation.ReflTransGen.refl, hp⟩, rfl, rfl, rfl, hR, ?_, fun _ _ => rfl,
        fun _ _ => Iff.rfl⟩
      intro j hj
      rcases Relation.ReflTransGen.cases_head hj with h1 | ⟨c, hstep, _⟩
      · exact Or.inl h1.symm
      · unfold parentRel at hstep
        rw [hp] at hstep
        cases hstep
    | some p =>
      have hplt : s.rank_ i < s.rank_ p := hR i p hp
      obtain ⟨IH1, IH2, IH3, IH4, IH5, IH6, IH7, IH8⟩ :=
        ih s p hR (fun j => by have := hf j; omega)
      set s' := (UFState.find fuel s p).1 with hs'
      set r := (UFState.find fuel s p).2 with hr
      have hS : UFState.find (fuel + 1) s i
          = ({ s' with parent_ := updFn s'.parent_ i (some r) }, r) := by
        simp only [UFState.find, hp]
      have h_ine_r : i ≠ r := by
        intro h
        rw [h] at hp
        rw [IH1.2] at hp
        cases hp
      have hrtg_ir : Relation.ReflTransGen (parentRel s) i r :=
        Relation.ReflTransGen.head hp IH1.1
      have hroot_ir : RootOf s i r := ⟨hrtg_ir, IH1.2⟩
      have hnrtg_pi : ¬ Relation.ReflTransGen (parentRel s) p i := by
        intro h
        have := rank_le_of_rtg hR h
        omega
      have hroot'_ir : RootOf s' i r := (IH8 i r).mpr hroot_ir
      have hroot'r : s'.parent_ r = none := hroot'_ir.2
      rw [hS]
      dsimp only
      refine ⟨hroot_ir, IH2, IH3, IH4, ?_, ?_, ?_, ?_⟩
      · exact redirect_rankIncr IH5 hroot'r hroot'_ir.1 h_ine_r
      · intro j hj
        rcases Relation.ReflTransGen.cases_head hj with h1 | ⟨c, hstep, htail⟩
        · refine Or.inr ?_
          rw [← h1]
          exact updFn_same _ _ _
        · have hcp : c = p := by
            unfold parentRel at hstep
            rw [hp] at hstep
            cases hstep
            rfl
          rw [hcp] at htail
          rcases IH6 j htail with h2 | h2
          · exact Or.inl h2
          · refine Or.inr ?_
            have hji : j ≠ i := by
              intro h
              rw [h] at htail
              exact hnrtg_pi htail
            rw [updFn_other _ _ _ _ hji]
            exact h2
      · intro j hj
        have hji : j ≠ i := by
          intro h
          rw [h] at hj
          exact hj Relation.ReflTransGen.refl
        have hnp : ¬ Relation.ReflTransGen (parentRel s) p j := by
          intro h
          exact hj (Relation.ReflTransGen.head hp h)
        calc updFn s'.parent_ i (some r) j = s'.parent_ j := updFn_other _ _ _ _ hji
          _ = s.parent_ j := IH7 j hnp
      · intro k m
        rw [redirect_rootOf hroot'r hroot'_ir.1 h_ine_r k m]
        exact IH8 k m

theorem rtg_lift_of_root {ι : Type} [DecidableEq ι] {s t : UFState ι} {a b : ι}
    (ha : s.parent_ a = none)
    (hpar : ∀ x, t.parent_ x = if x = a then some b else s.parent_ x)
    {k m : ι} (hc : Relation.ReflTransGen (parentRel s) k m) :
    Relation.ReflTransGen (parentRel t) k m := by
  induction hc with
  | refl => exact Relation.ReflTransGen.refl
  | @tail c d hkc hcd ih =>
    refine Relation.ReflTransGen.tail ih ?_
    unfold parentRel at hcd ⊢
    rw [hpar]
    have hca : c ≠ a := by
      intro h
      rw [h, ha] at hcd
      cases hcd
    rw [if_neg hca]
    exact hcd

theorem attach_rtg {ι : Type} [DecidableEq ι] {s t : UFState ι} {a b : ι}
    (ha : s.parent_ a = none) (hb : s.parent_ b = none) (hab : a ≠ b)
    (hpar : ∀ x, t.parent_ x = if x = a then some b else s.parent_ x)
    {k m : ι} (hc : Relation.ReflTransGen (parentRel t) k m) :
    Relation.ReflTransGen (parentRel s) k m
    ∨ (Relation.ReflTransGen (parentRel s) k a ∧ m = b) := by
  induction hc with
  | refl => exact Or.inl Relation.ReflTransGen.refl
  | @tail c d hkc hcd ih =>
    unfold parentRel at hcd
    rw [hpar] at hcd
    by_cases hca : c = a
    · rw [if_pos hca] at hcd
      cases hcd
      rcases ih with h1 | ⟨h1, h2⟩
      · rw [hca] at h1
        exact Or.inr ⟨h1, rfl⟩
      · rw [h2] at hca
        exact absurd hca.symm hab
    · rw [if_neg hca] at hcd
      rcases ih with h1 | ⟨h1, h2⟩
      · exact Or.inl (Relation.ReflTransGen.tail h1 hcd)
      · rw [h2] at hcd
        rw [hb] at hcd
        cases hcd

theorem attach_rootOf {ι : Type} [DecidableEq ι] {s t : UFState ι} {a b : ι}
    (ha : s.parent_ a = none) (hb : s.parent_ b = none) (hab : a ≠ b)
    (hpar : ∀ x, t.parent_ x = if x = a then some b else s.parent_ x)
    (k m : ι) :
    RootOf t k m ↔ ((RootOf s k a ∧ m = b) ∨ (RootOf s k m ∧ m ≠ a)) := by
  have hroott : ∀ x, t.parent_ x = none ↔ (x ≠ a ∧ s.parent_ x = none) := by
    intro x
    rw [hpar]
    by_cases hx : x = a
    · rw [if_pos hx]
      simp [hx]
    · rw [if_neg hx]
      simp [hx]
  constructor
  · rintro ⟨hc, hm⟩
    obtain ⟨hma, hmnone⟩ := (hroott m).mp hm
    rcases attach_rtg ha hb hab hpar hc with h1 | ⟨h1, h2⟩
    · exact Or.inr ⟨⟨h1, hmnone⟩, hma⟩
    · exact Or.inl ⟨⟨h1, ha⟩, h2⟩
  · rintro (⟨⟨hc, _⟩, h2⟩ | ⟨⟨hc, hm⟩, hma⟩)
    · refine ⟨?_, ?_⟩
      · rw [h2]
        refine Relation.ReflTransGen.tail (rtg_lift_of_root ha hpar hc) ?_
        unfold parentRel
        rw [hpar, if_pos rfl]
      · rw [h2]
        rw [hroott]
        exact ⟨Ne.symm hab, hb⟩
    · refine ⟨rtg_lift_of_root ha hpar hc, ?_⟩
      rw [hroott]
      exact ⟨hma, hm⟩

theorem attach_rankIncr_lt {ι : Type} [DecidableEq ι] {s t : UFState ι} {a b : ι}
    (hR : RankIncr s) (hrank : s.rank_ a < s.rank_ b)
    (hpar : ∀ x, t.parent_ x = if x = a then some b else s.parent_ x)
    (htr : t.rank_ = s.rank_) : RankIncr t := by
  intro x y hxy
  rw [hpar] at hxy
  rw [htr]
  by_cases hx : x = a
  · rw [if_pos hx] at hxy
    cases hxy
    rw [hx]
    exact hrank
  · rw [if_neg hx] at hxy
    exact hR x y hxy

theorem attach_rankIncr_eq {ι : Type} [DecidableEq ι] {s t : UFState ι} {a b : ι}
    (hR : RankIncr s) (hb : s.parent_ b = none) (hab : a ≠ b)
    (hrank : s.rank_ a = s.rank_ b)
    (hpar : ∀ x, t.parent_ x = if x = a then some b else s.parent_ x)
    (htr : t.rank_ = updFn s.rank_ b (s.rank_ b + 1)) : RankIncr t := by
  intro x y hxy
  rw [hpar] at hxy
  rw [htr]
  by_cases hx : x = a
  · rw [if_pos hx] at hxy
    cases hxy
    rw [hx]
    rw [updFn_other _ _ _ _ hab, updFn_same]
    omega
  · rw [if_neg hx] at hxy
    have h1 := hR x y hxy
    have hxb : x ≠ b := by
      intro h
      rw [h, hb] at hxy
      cases hxy
    rw [updFn_other _ _ _ _ hxb]
    unfold updFn
    by_cases hy : y = b
    · rw [if_pos hy]
      rw [hy] at h1
      omega
    · rw [if_neg hy]
      exact h1

theorem unite_spec {ι : Type} [DecidableEq ι] {fuel : ℕ} {s : UFState ι} (hR : RankIncr s)
    (hfuel : ∀ j, s.rank_ j < fuel) (x y : ι) :
    ∃ s2 : UFState ι, ∃ xr yr : ι,
      RootOf s x xr ∧ RootOf s y yr
      ∧ s2.rank_ = s.rank_ ∧ s2.hasLabel_ = s.hasLabel_ ∧ s2.label_ = s.label_
      ∧ (∀ k m, RootOf s2 k m ↔ RootOf s k m)
      ∧ RankIncr s2
      ∧ s2.parent_ xr = none ∧ s2.parent_ yr = none
      ∧ (s.rank_ yr < s.rank_ xr →
          UFState.unite fuel s x y
            = .ok { s2 with parent_ := updFn s2.parent_ yr (some xr) })
      ∧ (s.rank_ xr < s.rank_ yr →
          UFState.unite fuel s x y
            = .ok { s2 with parent_ := updFn s2.parent_ xr (some yr) })
      ∧ (s.rank_ xr = s.rank_ yr → xr ≠ yr → s.rank_ xr ≠ RANK_MAX →
          UFState.unite fuel s x y
            = .ok { s2 with parent_ := updFn s2.parent_ yr (some xr),
                            rank_ := updFn s2.rank_ xr (s2.rank_ xr + 1) })
      ∧ (s.rank_ xr = s.rank_ yr → xr ≠ yr → s.rank_ xr = RANK_MAX →
          UFState.unite fuel s x y = .error "Connected components graph overflow.")
      ∧ (xr = yr → UFState.unite fuel s x y = .ok s2) := by
  have hfx : ∀ j, s.rank_ j < s.rank_ x + fuel := fun j => by
    have := hfuel j
    omega
  obtain ⟨F1, F2, F3, F4, F5, F6, F7, F8⟩ := find_spec fuel s x hR hfx
  set s1 := (UFState.find fuel s x).1 with hs1
  set xr := (UFState.find fuel s x).2 with hxr
  have hfy : ∀ j, s1.rank_ j < s1.rank_ y + fuel := fun j => by
    rw [F2]
    have := hfuel j
    omega
  obtain ⟨G1, G2, G3, G4, G5, G6, G7, G8⟩ := find_spec fuel s1 y F5 hfy
  set s2 := (UFState.find fuel s1 y).1 with hs2
  set yr := (UFState.find fuel s1 y).2 with hyr
  have hrank2 : s2.rank_ = s.rank_ := by rw [G2, F2]
  have hlab2 : s2.hasLabel_ = s.hasLabel_ := by rw [G3, F3]
  have hlbl2 : s2.label_ = s.label_ := by rw [G4, F4]
  have hroots2 : ∀ k m, RootOf s2 k m ↔ RootOf s k m := by
    intro k m
    rw [G8, F8]
  have hry : RootOf s y yr := (F8 y yr).mp G1
  have hx2 : RootOf s2 x xr := (hroots2 x xr).mpr F1
  have hy2 : RootOf s2 y yr := (hroots2 y yr).mpr hry
  have hxr2 : s2.parent_ xr = none := hx2.2
  have hyr2 : s2.parent_ yr = none := hy2.2
  have hunite : UFState.unite fuel s x y
      = (if s2.rank_ xr > s2.rank_ yr then
          .ok { s2 with parent_ := updFn s2.parent_ yr (some xr) }
        else if s2.rank_ xr < s2.rank_ yr then
          .ok { s2 with parent_ := updFn s2.parent_ xr (some yr) }
        else if xr ≠ yr then
          if s2.rank_ xr = RANK_MAX then
            .error "Connected components graph overflow."
          else
            .ok { s2 with parent_ := updFn s2.parent_ yr (some xr),
                          rank_ := updFn s2.rank_ xr (s2.rank_ xr + 1) }
        else
          .ok s2) := by
    rw [UFState.unite]
  refine ⟨s2, xr, yr, F1, hry, hrank2, hlab2, hlbl2, hroots2, G5, hxr2, hyr2,
    ?_, ?_, ?_, ?_, ?_⟩
  · intro h
    rw [hunite, if_pos (by rw [hrank2]; exact h)]
  · intro h
    rw [hunite, if_neg (by rw [hrank2]; omega), if_pos (by rw [hrank2]; exact h)]
  · intro h hne hmax
    rw [hunite, if_neg (by rw [hrank2]; omega), if_neg (by rw [hrank2]; omega),
      if_pos hne, if_neg (by rw [hrank2]; exact hmax)]
  · intro h hne hmax
    rw [hunite, if_neg (by rw [hrank2]; omega), if_neg (by rw [hrank2]; omega),
      if_pos hne, if_pos (by rw [hrank2]; exact hmax)]
  · intro h
    have heq : s2.rank_ xr = s2.rank_ yr := by rw [h]
    rw [hunite, if_neg (by omega), if_neg (by omega), if_neg (by simp [h])]

theorem rootOf_self {ι : Type} {s : UFState ι} {a : ι} (ha : s.parent_ a = none) :
    RootOf s a a :=
  ⟨Relation.ReflTransGen.refl, ha⟩

theorem sameRoot_symm {ι : Type} {s : UFState ι} {u v : ι} (h : sameRoot s u v) :
    sameRoot s v u := by
  obtain ⟨r, h1, h2⟩ := h
  exact ⟨r, h2, h1⟩

theorem sameRoot_trans {ι : Type} {s : UFState ι} {u v w : ι}
    (h1 : sameRoot s u v) (h2 : sameRoot s v w) : sameRoot s u w := by
  obtain ⟨r, ha, hb⟩ := h1
  obtain ⟨r', hc, hd⟩ := h2
  rw [rootOf_unique hb hc] at ha
  exact ⟨r', ha, hd⟩

theorem sameRoot_of_rootOf {ι : Type} {s : UFState ι} {u r : ι} (h : RootOf s u r) :
    sameRoot s u r :=
  ⟨r, h, rootOf_self h.2⟩

theorem rootOf_of_sameRoot_root {ι : Type} {s : UFState ι} {u a : ι}
    (ha : s.parent_ a = none) (h : sameRoot s u a) : RootOf s u a := by
  obtain ⟨r, h1, h2⟩ := h
  rw [rootOf_unique h2 (rootOf_self ha)] at h1
  exact h1

theorem sameRoot_congr {ι : Type} {s t : UFState ι}
    (h : ∀ k m, RootOf s k m ↔ RootOf t k m) (u v : ι) :
    sameRoot s u v ↔ sameRoot t u v := by
  unfold sameRoot
  constructor
  · rintro ⟨r, h1, h2⟩
    exact ⟨r, (h u r).mp h1, (h v r).mp h2⟩
  · rintro ⟨r, h1, h2⟩
    exact ⟨r, (h u r).mpr h1, (h v r).mpr h2⟩

theorem attach_sameRoot {ι : Type} {s s' : UFState ι} {a b : ι}
    (hra : s.parent_ a = none) (hrb : s.parent_ b = none) (hab : a ≠ b)
    (hchar : ∀ k m, RootOf s' k m ↔ ((RootOf s k a ∧ m = b) ∨ (RootOf s k m ∧ m ≠ a)))
    (u v : ι) :
    sameRoot s' u v
      ↔ (sameRoot s u v
        ∨ (sameRoot s u a ∧ sameRoot s b v)
        ∨ (sameRoot s u b ∧ sameRoot s a v)) := by
  constructor
  · rintro ⟨m, h1, h2⟩
    rw [hchar] at h1 h2
    rcases h1 with ⟨h1a, h1b⟩ | ⟨h1m, h1ne⟩ <;>
      rcases h2 with ⟨h2a, h2b⟩ | ⟨h2m, h2ne⟩
    · exact Or.inl ⟨a, h1a, h2a⟩
    · rw [h1b] at h2m
      exact Or.inr (Or.inl ⟨sameRoot_of_rootOf h1a, sameRoot_symm (sameRoot_of_rootOf h2m)⟩)
    · rw [h2b] at h1m
      exact Or.inr (Or.inr ⟨sameRoot_of_rootOf h1m, sameRoot_symm (sameRoot_of_rootOf h2a)⟩)
    · exact Or.inl ⟨m, h1m, h2m⟩
  · rintro (⟨r, hu, hv⟩ | ⟨h1, h2⟩ | ⟨h1, h2⟩)
    · by_cases hr : r = a
      · rw [hr] at hu hv
        refine ⟨b, ?_, ?_⟩
        · rw [hchar]
          exact Or.inl ⟨hu, rfl⟩
        · rw [hchar]
          exact Or.inl ⟨hv, rfl⟩
      · refine ⟨r, ?_, ?_⟩
        · rw [hchar]
          exact Or.inr ⟨hu, hr⟩
        · rw [hchar]
          exact Or.inr ⟨hv, hr⟩
    · have hu : RootOf s u a := rootOf_of_sameRoot_root hra h1
      have hv : RootOf s v b := rootOf_of_sameRoot_root hrb (sameRoot_symm h2)
      refine ⟨b, ?_, ?_⟩
      · rw [hchar]
        exact Or.inl ⟨hu, rfl⟩
      · rw [hchar]
        exact Or.inr ⟨hv, Ne.symm hab⟩
    · have hu : RootOf s u b := rootOf_of_sameRoot_root hrb h1
      have hv : RootOf s v a := rootOf_of_sameRoot_root hra (sameRoot_symm h2)
      refine ⟨b, ?_, ?_⟩
      · rw [hchar]
        exact Or.inr ⟨hu, Ne.symm hab⟩
      · rw [hchar]
        exact Or.inl ⟨hv, rfl⟩

theorem updFn_char {ι : Type} [DecidableEq ι] {β : Type} (f : ι → β) (a : ι) (v : β) :
    ∀ z, updFn f a v z = if z = a then v else f z :=
  fun _ => rfl

theorem unite_ok_join {ι : Type} [DecidableEq ι] {fuel : ℕ} {s s' : UFState ι}
    (hR : RankIncr s) (hfuel : ∀ j, s.rank_ j < fuel) {x y : ι}
    (hok : UFState.unite fuel s x y = .ok s') :
    RankIncr s'
    ∧ (∀ j, s.rank_ j ≤ s'.rank_ j) ∧ (∀ j, s'.rank_ j ≤ s.rank_ j + 1)
    ∧ s'.hasLabel_ = s.hasLabel_ ∧ s'.label_ = s.label_
    ∧ (∀ u v, sameRoot s' u v ↔
        (sameRoot s u v
          ∨ (sameRoot s u x ∧ sameRoot s y v)
          ∨ (sameRoot s u y ∧ sameRoot s x v))) := by
  obtain ⟨s2, xr, yr, F1, hry, hrank2, hlab2, hlbl2, hroots2, hR2, hxr2, hyr2,
    spec1, spec2, spec3, spec4, spec5⟩ := unite_spec hR hfuel x y
  have hxr : s.parent_ xr = none := F1.2
  have hyr : s.parent_ yr = none := hry.2
  have hux : ∀ u, sameRoot s u xr ↔ sameRoot s u x := by
    intro u
    constructor
    · intro h
      exact sameRoot_trans h (sameRoot_symm (sameRoot_of_rootOf F1))
    · intro h
      exact sameRoot_trans h (sameRoot_of_rootOf F1)
  have huy : ∀ u, sameRoot s u yr ↔ sameRoot s u y := by
    intro u
    constructor
    · intro h
      exact sameRoot_trans h (sameRoot_symm (sameRoot_of_rootOf hry))
    · intro h
      exact sameRoot_trans h (sameRoot_of_rootOf hry)
  have hvx : ∀ v, sameRoot s xr v ↔ sameRoot s x v := by
    intro v
    constructor
    · intro h
      exact sameRoot_trans (sameRoot_of_rootOf F1) h
    · intro h
      exact sameRoot_trans (sameRoot_symm (sameRoot_of_rootOf F1)) h
  have hvy : ∀ v, sameRoot s yr v ↔ sameRoot s y v := by
    intro v
    constructor
    · intro h
      exact sameRoot_trans (sameRoot_of_rootOf hry) h
    · intro h
      exact sameRoot_trans (sameRoot_symm (sameRoot_of_rootOf hry)) h
  rcases Nat.lt_trichotomy (s.rank_ xr) (s.rank_ yr) with hlt | heq | hgt
  · rw [spec2 hlt] at hok
    cases hok
    have hne : xr ≠ yr := by
      intro h
      rw [h] at hlt
      omega
    have hchar : ∀ k m,
        RootOf { s2 with parent_ := updFn s2.parent_ xr (some yr) } k m
          ↔ ((RootOf s k xr ∧ m = yr) ∨ (RootOf s k m ∧ m ≠ xr)) := by
      intro k m
      rw [attach_rootOf hxr2 hyr2 hne (updFn_char _ _ _) k m]
      rw [hroots2, hroots2]
    refine ⟨?_, ?_, ?_, hlab2, hlbl2, ?_⟩
    · refine attach_rankIncr_lt hR2 ?_ (updFn_char _ _ _) rfl
      rw [hrank2]
      exact hlt
    · intro j
      show s.rank_ j ≤ s2.rank_ j
      rw [hrank2]
    · intro j
      show s2.rank_ j ≤ s.rank_ j + 1
      rw [hrank2]
      omega
    · intro u v
      rw [attach_sameRoot hxr hyr hne hchar u v]
      rw [hux, huy, hvx, hvy]
  · by_cases hxy : xr = yr
    · rw [spec5 hxy] at hok
      cases hok
      have hsxy : sameRoot s x y := ⟨yr, hxy ▸ F1, hry⟩
      refine ⟨hR2, ?_, ?_, hlab2, hlbl2, ?_⟩
      · intro j
        rw [hrank2]
      · intro j
        rw [hrank2]
        omega
      · intro u v
        rw [sameRoot_congr hroots2 u v]
        constructor
        · intro h
          exact Or.inl h
        · rintro (h | ⟨h1, h2⟩ | ⟨h1, h2⟩)
          · exact h
          · exact sameRoot_trans h1 (sameRoot_trans hsxy h2)
          · exact sameRoot_trans h1 (sameRoot_trans (sameRoot_symm hsxy) h2)
    · by_cases hmax : s.rank_ xr = RANK_MAX
      · rw [spec4 heq hxy hmax] at hok
        cases hok
      · rw [spec3 heq hxy hmax] at hok
        cases hok
        have hne : yr ≠ xr := Ne.symm hxy
        have hchar : ∀ k m,
            RootOf { s2 with parent_ := updFn s2.parent_ yr (some xr),
                             rank_ := updFn s2.rank_ xr (s2.rank_ xr + 1) } k m
              ↔ ((RootOf s k yr ∧ m = xr) ∨ (RootOf s k m ∧ m ≠ yr)) := by
          intro k m
          rw [attach_rootOf hyr2 hxr2 hne (updFn_char _ _ _) k m]
          rw [hroots2, hroots2]
        refine ⟨?_, ?_, ?_, hlab2, hlbl2, ?_⟩
        · refine attach_rankIncr_eq hR2 hxr2 hne ?_ (updFn_char _ _ _) rfl
          rw [hrank2]
          omega
        · intro j
          show s.rank_ j ≤ updFn s2.rank_ xr (s2.rank_ xr + 1) j
          rw [updFn_char]
          by_cases hj : j = xr
          · rw [if_pos hj, hrank2, hj]
            omega
          · rw [if_neg hj, hrank2]
        · intro j
          show updFn s2.rank_ xr (s2.rank_ xr + 1) j ≤ s.rank_ j + 1
          rw [updFn_char]
          by_cases hj : j = xr
          · rw [if_pos hj, hrank2, hj]
          · rw [if_neg hj, hrank2]
            omega
        · intro u v
          rw [attach_sameRoot hyr hxr hne hchar u v]
          rw [hux, huy, hvx, hvy]
          constructor
          · rintro (h | h | h)
            · exact Or.inl h
            · exact Or.inr (Or.inr h)
            · exact Or.inr (Or.inl h)
          · rintro (h | h | h)
            · exact Or.inl h
            · exact Or.inr (Or.inr h)
            · exact Or.inr (Or.inl h)
  · rw [spec1 hgt] at hok
    cases hok
    have hne : yr ≠ xr := by
      intro h
      rw [h] at hgt
      omega
    have hchar : ∀ k m,
        RootOf { s2 with parent_ := updFn s2.parent_ yr (some xr) } k m
          ↔ ((RootOf s k yr ∧ m = xr) ∨ (RootOf s k m ∧ m ≠ yr)) := by
      intro k m
      rw [attach_rootOf hyr2 hxr2 hne (updFn_char _ _ _) k m]
      rw [hroots2, hroots2]
    refine ⟨?_, ?_, ?_, hlab2, hlbl2, ?_⟩
    · refine attach_rankIncr_lt hR2 ?_ (updFn_char _ _ _) rfl
      rw [hrank2]
      exact hgt
    · intro j
      show s.rank_ j ≤ s2.rank_ j
      rw [hrank2]
    · intro j
      show s2.rank_ j ≤ s.rank_ j + 1
      rw [hrank2]
      omega
    · intro u v
      rw [attach_sameRoot hyr hxr hne hchar u v]
      rw [hux, huy, hvx, hvy]
      constructor
      · rintro (h | h | h)
        · exact Or.inl h
        · exact Or.inr (Or.inr h)
        · exact Or.inr (Or.inl h)
      · rintro (h | h | h)
        · exact Or.inl h
        · exact Or.inr (Or.inr h)
        · exact Or.inr (Or.inl h)


/-- C3: `unite(x, y)` is a no-op (sets and ranks unchanged) when `find(x)` and
`find(y)` return the same root; otherwise it attaches the lower-rank root
under the higher-rank root without changing any rank, and on equal ranks it
attaches `y`'s root under `x`'s root and increments `x`'s root's rank, failing
with the graph-overflow error exactly when that rank is already at the 16-bit
ceiling `65535`; `find(n)` returns a node whose parent is nil, and afterwards
every node on the traversed chain is the root or points directly at it; no
operation decreases any rank.  The hypotheses say that ranks strictly
increase along parent links (true in every state the engine constructs) and
that the fuel driving the structural recursion exceeds every rank. -/
theorem unite_find_contract {ι : Type} [DecidableEq ι] (fuel : ℕ) (s : UFState ι)
    (hR : RankIncr s) (hfuel : ∀ j, s.rank_ j < fuel) (x y n : ι) :
    (s.parent_ (UFState.find fuel s n).2 = none
      ∧ (UFState.find fuel s n).1.parent_ (UFState.find fuel s n).2 = none
      ∧ (∀ j, Relation.ReflTransGen (parentRel s) n j →
          j = (UFState.find fuel s n).2
          ∨ (UFState.find fuel s n).1.parent_ j = some (UFState.find fuel s n).2)
      ∧ (UFState.find fuel s n).1.rank_ = s.rank_)
    ∧ (∀ xr yr, RootOf s x xr → RootOf s y yr →
        (xr = yr → ∃ s', UFState.unite fuel s x y = .ok s' ∧ s'.rank_ = s.rank_
          ∧ (∀ u v, sameRoot s' u v ↔ sameRoot s u v))
        ∧ (s.rank_ yr < s.rank_ xr → ∃ s', UFState.unite fuel s x y = .ok s'
            ∧ s'.parent_ yr = some xr ∧ s'.rank_ = s.rank_)
        ∧ (s.rank_ xr < s.rank_ yr → ∃ s', UFState.unite fuel s x y = .ok s'
            ∧ s'.parent_ xr = some yr ∧ s'.rank_ = s.rank_)
        ∧ (s.rank_ xr = s.rank_ yr → xr ≠ yr → s.rank_ xr ≠ 65535 →
            ∃ s', UFState.unite fuel s x y = .ok s'
              ∧ s'.parent_ yr = some xr ∧ s'.rank_ xr = s.rank_ xr + 1
              ∧ ∀ j, j ≠ xr → s'.rank_ j = s.rank_ j)
        ∧ (s.rank_ xr = s.rank_ yr → xr ≠ yr → s.rank_ xr = 65535 →
            UFState.unite fuel s x y = .error "Connected components graph overflow."))
    ∧ (∀ s', UFState.unite fuel s x y = .ok s' → ∀ j, s.rank_ j ≤ s'.rank_ j) := by
  have hfn : ∀ j, s.rank_ j < s.rank_ n + fuel := fun j => by
    have := hfuel j
    omega
  obtain ⟨F1, F2, _, _, _, F6, _, _⟩ := find_spec fuel s n hR hfn
  obtain ⟨s2, xr', yr', G1, G2, hrank2, hlab2, hlbl2, hroots2, hR2, hxr2, hyr2,
    spec1, spec2, spec3, spec4, spec5⟩ := unite_spec hR hfuel x y
  refine ⟨⟨F1.2, ?_, F6, F2⟩, ?_, ?_⟩
  · have : RootOf (UFState.find fuel s n).1 n (UFState.find fuel s n).2 := by
      obtain ⟨_, _, _, _, _, _, _, F8⟩ := find_spec fuel s n hR hfn
      exact (F8 n (UFState.find fuel s n).2).mpr F1
    exact this.2
  · intro xr yr hxroot hyroot
    have hxx : xr = xr' := rootOf_unique hxroot G1
    have hyy : yr = yr' := rootOf_unique hyroot G2
    rw [hxx, hyy]
    refine ⟨?_, ?_, ?_, ?_, ?_⟩
    · intro h
      refine ⟨s2, spec5 h, hrank2, ?_⟩
      intro u v
      exact sameRoot_congr hroots2 u v
    · intro h
      refine ⟨_, spec1 h, ?_, hrank2⟩
      show updFn s2.parent_ yr' (some xr') yr' = some xr'
      rw [updFn_same]
    · intro h
      refine ⟨_, spec2 h, ?_, hrank2⟩
      show updFn s2.parent_ xr' (some yr') xr' = some yr'
      rw [updFn_same]
    · intro h hne hmax
      refine ⟨_, spec3 h hne hmax, ?_, ?_, ?_⟩
      · show updFn s2.parent_ yr' (some xr') yr' = some xr'
        rw [updFn_same]
      · show updFn s2.rank_ xr' (s2.rank_ xr' + 1) xr' = s.rank_ xr' + 1
        rw [updFn_same, hrank2]
      · intro j hj
        show updFn s2.rank_ xr' (s2.rank_ xr' + 1) j = s.rank_ j
        rw [updFn_other _ _ _ _ hj, hrank2]
    · intro h hne hmax
      exact spec4 h hne hmax
  · intro s' hok j
    exact (unite_ok_join hR hfuel hok).2.1 j

/-- C3 witness: the contract applied to two fresh zero-initialised nodes
`0` and `1` (of a node store indexed by `ℕ`) with fuel `1`. -/
theorem unite_find_contract_witness :
    ((UFState.init ℕ).parent_ (UFState.find 1 (UFState.init ℕ) 0).2 = none
      ∧ (UFState.find 1 (UFState.init ℕ) 0).1.parent_ (UFState.find 1 (UFState.init ℕ) 0).2 = none
      ∧ (∀ j, Relation.ReflTransGen (parentRel (UFState.init ℕ)) 0 j →
          j = (UFState.find 1 (UFState.init ℕ) 0).2
          ∨ (UFState.find 1 (UFState.init ℕ) 0).1.parent_ j
              = some (UFState.find 1 (UFState.init ℕ) 0).2)
      ∧ (UFState.find 1 (UFState.init ℕ) 0).1.rank_ = (UFState.init ℕ).rank_)
    ∧ (∀ xr yr, RootOf (UFState.init ℕ) 0 xr → RootOf (UFState.init ℕ) 1 yr →
        (xr = yr → ∃ s', UFState.unite 1 (UFState.init ℕ) 0 1 = .ok s'
          ∧ s'.rank_ = (UFState.init ℕ).rank_
          ∧ (∀ u v, sameRoot s' u v ↔ sameRoot (UFState.init ℕ) u v))
        ∧ ((UFState.init ℕ).rank_ yr < (UFState.init ℕ).rank_ xr →
            ∃ s', UFState.unite 1 (UFState.init ℕ) 0 1 = .ok s'
              ∧ s'.parent_ yr = some xr ∧ s'.rank_ = (UFState.init ℕ).rank_)
        ∧ ((UFState.init ℕ).rank_ xr < (UFState.init ℕ).rank_ yr →
            ∃ s', UFState.unite 1 (UFState.init ℕ) 0 1 = .ok s'
              ∧ s'.parent_ xr = some yr ∧ s'.rank_ = (UFState.init ℕ).rank_)
        ∧ ((UFState.init ℕ).rank_ xr = (UFState.init ℕ).rank_ yr → xr ≠ yr →
            (UFState.init ℕ).rank_ xr ≠ 65535 →
            ∃ s', UFState.unite 1 (UFState.init ℕ) 0 1 = .ok s'
              ∧ s'.parent_ yr = some xr ∧ s'.rank_ xr = (UFState.init ℕ).rank_ xr + 1
              ∧ ∀ j, j ≠ xr → s'.rank_ j = (UFState.init ℕ).rank_ j)
        ∧ ((UFState.init ℕ).rank_ xr = (UFState.init ℕ).rank_ yr → xr ≠ yr →
            (UFState.init ℕ).rank_ xr = 65535 →
            UFState.unite 1 (UFState.init ℕ) 0 1
              = .error "Connected components graph overflow."))
    ∧ (∀ s', UFState.unite 1 (UFState.init ℕ) 0 1 = .ok s' →
        ∀ j, (UFState.init ℕ).rank_ j ≤ s'.rank_ j) :=
  unite_find_contract 1 (UFState.init ℕ)
    (by intro i j h; simp [UFState.init] at h)
    (by intro j; simp [UFState.init])
    0 1 0

/-- Equivalence closure of a relation (the equivalence classes generated by
the `unite` calls of pass 1). -/
inductive EqvClosure {α : Type} (r : α → α → Prop) : α → α → Prop
  | rel : ∀ {a b}, r a b → EqvClosure r a b
  | refl : ∀ a, EqvClosure r a a
  | symm : ∀ {a b}, EqvClosure r a b → EqvClosure r b a
  | trans : ∀ {a b c}, EqvClosure r a b → EqvClosure r b c → EqvClosure r a c

theorem eqvClosure_mono_into {α : Type} {r q : α → α → Prop}
    (h : ∀ a b, r a b → EqvClosure q a b) {a b : α} (hc : EqvClosure r a b) :
    EqvClosure q a b := by
  induction hc with
  | rel hab => exact h _ _ hab
  | refl a => exact EqvClosure.refl a
  | symm _ ih => exact EqvClosure.symm ih
  | trans _ _ ih1 ih2 => exact EqvClosure.trans ih1 ih2

theorem eqvClosure_eq_self {α : Type} {R : α → α → Prop}
    (hrefl : ∀ a, R a a) (hsymm : ∀ {a b}, R a b → R b a)
    (htrans : ∀ {a b c}, R a b → R b c → R a c) {a b : α} :
    EqvClosure R a b ↔ R a b := by
  constructor
  · intro h
    induction h with
    | rel hab => exact hab
    | refl a => exact hrefl a
    | symm _ ih => exact hsymm ih
    | trans _ _ ih1 ih2 => exact htrans ih1 ih2
  · exact EqvClosure.rel

theorem sameRoot_refl {ι : Type} {s : UFState ι} (hR : RankIncr s) (B : ℕ)
    (hB : ∀ j, s.rank_ j ≤ B) (a : ι) : sameRoot s a a := by
  obtain ⟨r, h⟩ := rootOf_exists hR B hB a
  exact ⟨r, h, h⟩

theorem foldUnite_sameRoot {fuel : ℕ} (pl : List (Coord × Coord)) :
    ∀ (s : UFState Coord) (k : ℕ), RankIncr s → (∀ j, s.rank_ j ≤ k) →
    k + pl.length < fuel →
    ∀ s', pl.foldlM (fun st (pr : Coord × Coord) => UFState.unite fuel st pr.1 pr.2) s
        = .ok s' →
    RankIncr s' ∧ (∀ j, s'.rank_ j ≤ k + pl.length)
    ∧ s'.hasLabel_ = s.hasLabel_ ∧ s'.label_ = s.label_
    ∧ (∀ u v, sameRoot s' u v ↔
        EqvClosure (fun a b => sameRoot s a b ∨ (a, b) ∈ pl) u v) := by
  induction pl with
  | nil =>
    intro s k hR hB hfuel s' hok
    rw [List.foldlM_nil] at hok
    cases hok
    refine ⟨hR, by simpa using hB, rfl, rfl, ?_⟩
    intro u v
    simp only [List.not_mem_nil, or_false]
    exact (eqvClosure_eq_self (sameRoot_refl hR k hB) (fun h => sameRoot_symm h)
      (fun h1 h2 => sameRoot_trans h1 h2)).symm
  | cons hd tl ih =>
    intro s k hR hB hfuel s' hok
    rw [List.foldlM_cons] at hok
    cases h1 : UFState.unite fuel s hd.1 hd.2 with
    | error e =>
      rw [h1] at hok
      cases hok
    | ok s1 =>
      rw [h1] at hok
      have hok2 : tl.foldlM (fun st (pr : Coord × Coord) => UFState.unite fuel st pr.1 pr.2) s1
          = .ok s' := hok
      have hfuel1 : ∀ j, s.rank_ j < fuel := fun j => by
        have h := hB j
        have := hfuel
        simp at this
        omega
      obtain ⟨hR1, hmono, hplus, hlab1, hlbl1, hjoin⟩ := unite_ok_join hR hfuel1 h1
      have hB1 : ∀ j, s1.rank_ j ≤ k + 1 := fun j => by
        have := hplus j
        have := hB j
        omega
      have hfuel' : (k + 1) + tl.length < fuel := by
        simp at hfuel
        omega
      obtain ⟨hR', hB', hlab', hlbl', hsame⟩ := ih s1 (k + 1) hR1 hB1 hfuel' s' hok2
      refine ⟨hR', ?_, hlab'.trans hlab1, hlbl'.trans hlbl1, ?_⟩
      · intro j
        have := hB' j
        simp
        omega
      · intro u v
        rw [hsame u v]
        constructor
        · intro h
          refine eqvClosure_mono_into ?_ h
          intro a b hab
          rcases hab with hab | hab
          · rw [hjoin a b] at hab
            rcases hab with h2 | ⟨h2, h3⟩ | ⟨h2, h3⟩
            · exact EqvClosure.rel (Or.inl h2)
            · refine EqvClosure.trans (EqvClosure.rel (Or.inl h2))
                (EqvClosure.trans ?_ (EqvClosure.rel (Or.inl h3)))
              exact EqvClosure.rel (Or.inr (by simp))
            · refine EqvClosure.trans (EqvClosure.rel (Or.inl h2))
                (EqvClosure.trans ?_ (EqvClosure.rel (Or.inl h3)))
              exact EqvClosure.symm (EqvClosure.rel (Or.inr (by simp)))
          · exact EqvClosure.rel (Or.inr (by simp [hab]))
        · intro h
          refine eqvClosure_mono_into ?_ h
          intro a b hab
          rcases hab with hab | hab
          · refine EqvClosure.rel (Or.inl ?_)
            rw [hjoin a b]
            exact Or.inl hab
          · rcases List.mem_cons.mp hab with hab | hab
            · refine EqvClosure.rel (Or.inl ?_)
              rw [hjoin a b]
              refine Or.inr (Or.inl ⟨?_, ?_⟩)
              · rw [show a = hd.1 by rw [Prod.ext_iff] at hab; exact hab.1]
                exact sameRoot_refl hR k hB _
              · rw [show b = hd.2 by rw [Prod.ext_iff] at hab; exact hab.2]
                exact sameRoot_refl hR k hB _
            · exact EqvClosure.rel (Or.inr hab)

/-! ### Face adjacency and the pairs united by pass 1 -/

/-- Two integers at distance exactly one. -/
def nextTo (x y : ℕ) : Prop := y = x + 1 ∨ x = y + 1

/-- Face adjacency: coordinates differing by exactly 1 in exactly one axis. -/
def faceAdj (a b : Coord) : Prop :=
  (nextTo a.1 b.1 ∧ a.2.1 = b.2.1 ∧ a.2.2 = b.2.2)
  ∨ (a.1 = b.1 ∧ nextTo a.2.1 b.2.1 ∧ a.2.2 = b.2.2)
  ∨ (a.1 = b.1 ∧ a.2.1 = b.2.1 ∧ nextTo a.2.2 b.2.2)

theorem nextTo_symm {x y : ℕ} (h : nextTo x y) : nextTo y x := h.symm

theorem faceAdj_symm {a b : Coord} (h : faceAdj a b) : faceAdj b a := by
  unfold faceAdj nextTo at h ⊢
  tauto

/-- The relation whose equivalence closure pass 1 computes: two in-volume,
face-adjacent voxels sharing a common foreground value. -/
def adjSameValue (width height depth : ℕ) (img : Coord → ℕ) (backgroundColor : ℕ)
    (a b : Coord) : Prop :=
  inVolume width height depth a ∧ inVolume width height depth b
  ∧ faceAdj a b ∧ img a = img b ∧ img a ≠ backgroundColor

theorem adjSameValue_symm {width height depth : ℕ} {img : Coord → ℕ}
    {backgroundColor : ℕ} {a b : Coord}
    (h : adjSameValue width height depth img backgroundColor a b) :
    adjSameValue width height depth img backgroundColor b a := by
  obtain ⟨h1, h2, h3, h4, h5⟩ := h
  exact ⟨h2, h1, faceAdj_symm h3, h4.symm, h4 ▸ h5⟩

/-- The (current voxel, neighbour) pairs united while pass 1 processes voxel
`p`, in loop order. -/
def nbrPairs (width height depth : ℕ) (img : Coord → ℕ) (backgroundColor : ℕ)
    (p : Coord) : List (Coord × Coord) :=
  if img p ≠ backgroundColor then
    (List.range 3).filterMap fun i =>
      match nbr width height depth p i with
      | some q => if img q = img p then some (p, q) else none
      | none => none
  else
    []

theorem nbrPairs_length_le {width height depth : ℕ} {img : Coord → ℕ}
    {backgroundColor : ℕ} {p : Coord} :
    (nbrPairs width height depth img backgroundColor p).length ≤ 3 := by
  unfold nbrPairs
  split_ifs
  · calc ((List.range 3).filterMap _).length ≤ (List.range 3).length :=
        List.length_filterMap_le _ _
      _ = 3 := by simp
  · simp

theorem nbrPairs_mem {width height depth : ℕ} {img : Coord → ℕ}
    {backgroundColor : ℕ} {p a b : Coord} :
    (a, b) ∈ nbrPairs width height depth img backgroundColor p
      ↔ img p ≠ backgroundColor ∧ a = p
        ∧ ∃ i, i < 3 ∧ nbr width height depth p i = some b ∧ img b = img p := by
  unfold nbrPairs
  split_ifs with hfg
  · rw [List.mem_filterMap]
    constructor
    · rintro ⟨i, hi, hf⟩
      rw [List.mem_range] at hi
      cases hq : nbr width height depth p i with
      | none => rw [hq] at hf; cases hf
      | some q =>
        rw [hq] at hf
        dsimp only at hf
        by_cases himg : img q = img p
        · rw [if_pos himg] at hf
          cases hf
          exact ⟨hfg, rfl, i, hi, hq, himg⟩
        · rw [if_neg himg] at hf
          cases hf
    · rintro ⟨_, rfl, i, hi, hq, himg⟩
      refine ⟨i, List.mem_range.mpr hi, ?_⟩
      rw [hq]
      dsimp only
      rw [if_pos himg]
  · simp
    intro h
    exact absurd h hfg

theorem pass1Step_eq_foldPairs (width height depth : ℕ) (img : Coord → ℕ)
    (backgroundColor : ℕ) (s : UFState Coord) (p : Coord) :
    pass1Step width height depth img backgroundColor s p
      = (nbrPairs width height depth img backgroundColor p).foldlM
          (fun st (pr : Coord × Coord) =>
            UFState.unite (ccFuel width height depth) st pr.1 pr.2) s := by
  unfold pass1Step nbrPairs
  split_ifs with hfg
  · rw [show List.range 3 = [0, 1, 2] from rfl]
    cases h0 : nbr width height depth p 0 <;>
      cases h1 : nbr width height depth p 1 <;>
        cases h2 : nbr width height depth p 2 <;>
          simp only [List.foldlM, List.filterMap, h0, h1, h2] <;>
            (try split_ifs) <;>
              simp [List.foldlM]
  · rfl

theorem mem_scanOrder {width height depth : ℕ} {p : Coord} :
    p ∈ scanOrder width height depth ↔ inVolume width height depth p := by
  unfold scanOrder inVolume
  rcases p with ⟨u, v, w⟩
  simp [List.mem_flatMap, List.mem_map, List.mem_range]
  constructor
  · rintro ⟨w', hw', v', hv', u', hu', h1, h2, h3⟩
    subst h1; subst h2; subst h3
    exact ⟨hu', hv', hw'⟩
  · rintro ⟨hu, hv, hw⟩
    exact ⟨w, hw, v, hv, u, hu, rfl, rfl, rfl⟩

theorem sum_const_range (n c : ℕ) : ((List.range n).map (fun _ => c)).sum = n * c := by
  induction n with
  | zero => simp
  | succ n ih =>
    rw [List.range_succ]
    simp [ih]
    ring

theorem scanOrder_length {width height depth : ℕ} :
    (scanOrder width height depth).length = width * height * depth := by
  unfold scanOrder
  rw [List.length_flatMap]
  have hinner : ∀ w : ℕ,
      ((List.range height).flatMap fun v =>
        (List.range width).map fun u => ((u, v, w) : Coord)).length
      = height * width := by
    intro w
    rw [List.length_flatMap]
    have : ((List.range height).map
        (List.length ∘ fun v => (List.range width).map fun u => ((u, v, w) : Coord)))
        = (List.range height).map (fun _ => width) := by
      apply List.map_congr_left
      intro v _
      simp [Function.comp]
    rw [this, sum_const_range]
  have : ((List.range depth).map
      (List.length ∘ fun w => (List.range height).flatMap fun v =>
        (List.range width).map fun u => ((u, v, w) : Coord)))
      = (List.range depth).map (fun _ => height * width) := by
    apply List.map_congr_left
    intro w _
    simp only [Function.comp]
    exact hinner w
  rw [this, sum_const_range]
  ring

theorem rootOf_init {ι : Type} (a r : ι) : RootOf (UFState.init ι) a r ↔ r = a := by
  constructor
  · rintro ⟨hc, _⟩
    rcases Relation.ReflTransGen.cases_head hc with h1 | ⟨c, hstep, _⟩
    · exact h1.symm
    · cases hstep
  · rintro rfl
    exact ⟨Relation.ReflTransGen.refl, rfl⟩

theorem sameRoot_init {ι : Type} (a b : ι) : sameRoot (UFState.init ι) a b ↔ a = b := by
  unfold sameRoot
  constructor
  · rintro ⟨r, h1, h2⟩
    rw [rootOf_init] at h1 h2
    rw [← h1, ← h2]
  · rintro rfl
    exact ⟨a, (rootOf_init a a).mpr rfl, (rootOf_init a a).mpr rfl⟩

theorem pass1_fold_spec (width height depth : ℕ) (img : Coord → ℕ)
    (backgroundColor : ℕ) (l : List Coord) :
    ∀ (s : UFState Coord) (k : ℕ), RankIncr s → (∀ j, s.rank_ j ≤ k) →
    k + 3 * l.length < ccFuel width height depth →
    ∀ s', l.foldlM (pass1Step width height depth img backgroundColor) s = .ok s' →
    RankIncr s' ∧ (∀ j, s'.rank_ j ≤ k + 3 * l.length)
    ∧ s'.hasLabel_ = s.hasLabel_ ∧ s'.label_ = s.label_
    ∧ (∀ u v, sameRoot s' u v ↔
        EqvClosure (fun a b => sameRoot s a b
          ∨ ∃ p ∈ l, (a, b) ∈ nbrPairs width height depth img backgroundColor p) u v) := by
  induction l with
  | nil =>
    intro s k hR hB hfuel s' hok
    rw [List.foldlM_nil] at hok
    cases hok
    refine ⟨hR, by simpa using hB, rfl, rfl, ?_⟩
    intro u v
    simp only [List.not_mem_nil, false_and, exists_false, or_false]
    exact (eqvClosure_eq_self (sameRoot_refl hR k hB) (fun h => sameRoot_symm h)
      (fun h1 h2 => sameRoot_trans h1 h2)).symm
  | cons p l ih =>
    intro s k hR hB hfuel s' hok
    rw [List.foldlM_cons] at hok
    cases h1 : pass1Step width height depth img backgroundColor s p with
    | error e =>
      rw [h1] at hok
      cases hok
    | ok s1 =>
      rw [h1] at hok
      have hok2 : l.foldlM (pass1Step width height depth img backgroundColor) s1
          = .ok s' := hok
      rw [pass1Step_eq_foldPairs] at h1
      have hlen : (nbrPairs width height depth img backgroundColor p).length ≤ 3 :=
        nbrPairs_length_le
      obtain ⟨hR1, hB1, hlab1, hlbl1, hsame1⟩ :=
        foldUnite_sameRoot _ s k hR hB (by simp at hfuel ⊢; omega) s1 h1
      have hB1' : ∀ j, s1.rank_ j ≤ k + 3 := fun j => by
        have := hB1 j
        omega
      obtain ⟨hR', hB', hlab', hlbl', hsame'⟩ :=
        ih s1 (k + 3) hR1 hB1' (by simp at hfuel ⊢; omega) s' hok2
      refine ⟨hR', ?_, hlab'.trans hlab1, hlbl'.trans hlbl1, ?_⟩
      · intro j
        have := hB' j
        simp
        omega
      · intro u v
        rw [hsame' u v]
        constructor
        · intro h
          refine eqvClosure_mono_into ?_ h
          intro a b hab
          rcases hab with hab | ⟨q, hq, hmem⟩
          · rw [hsame1 a b] at hab
            refine eqvClosure_mono_into ?_ hab
            intro a' b' hab'
            rcases hab' with h2 | h2
            · exact EqvClosure.rel (Or.inl h2)
            · exact EqvClosure.rel (Or.inr ⟨p, List.mem_cons_self p l, h2⟩)
          · exact EqvClosure.rel (Or.inr ⟨q, List.mem_cons_of_mem p hq, hmem⟩)
        · intro h
          refine eqvClosure_mono_into ?_ h
          intro a b hab
          rcases hab with hab | ⟨q, hq, hmem⟩
          · refine EqvClosure.rel (Or.inl ?_)
            rw [hsame1 a b]
            exact EqvClosure.rel (Or.inl hab)
          · rcases List.mem_cons.mp hq with rfl | hq'
            · refine EqvClosure.rel (Or.inl ?_)
              rw [hsame1 a b]
              exact EqvClosure.rel (Or.inr hmem)
            · exact EqvClosure.rel (Or.inr ⟨q, hq', hmem⟩)

/-- Pass 1 from the zero-initialised forest: two voxels end in the same set
iff they are related by the equivalence closure of the united pairs. -/
theorem pass1_spec {width height depth : ℕ} {img : Coord → ℕ}
    {backgroundColor : ℕ} {s1 : UFState Coord}
    (hok : pass1 width height depth img backgroundColor = .ok s1) :
    RankIncr s1 ∧ (∀ j, s1.rank_ j ≤ 3 * (width * height * depth))
    ∧ s1.hasLabel_ = (UFState.init Coord).hasLabel_
    ∧ s1.label_ = (UFState.init Coord).label_
    ∧ (∀ u v, sameRoot s1 u v ↔
        EqvClosure (fun a b => ∃ p ∈ scanOrder width height depth,
          (a, b) ∈ nbrPairs width height depth img backgroundColor p) u v) := by
  unfold pass1 at hok
  have hinit : RankIncr (UFState.init Coord) := by
    intro i j h
    cases h
  obtain ⟨hR, hB, hlab, hlbl, hsame⟩ :=
    pass1_fold_spec width height depth img backgroundColor
      (scanOrder width height depth) (UFState.init Coord) 0 hinit
      (fun j => le_refl 0) (by rw [scanOrder_length]; unfold ccFuel; omega) s1 hok
  refine ⟨hR, ?_, hlab, hlbl, ?_⟩
  · intro j
    have := hB j
    rw [scanOrder_length] at this
    omega
  · intro u v
    rw [hsame u v]
    constructor
    · intro h
      refine eqvClosure_mono_into ?_ h
      intro a b hab
      rcases hab with hab | hab
      · rw [sameRoot_init] at hab
        rw [hab]
        exact EqvClosure.refl b
      · exact EqvClosure.rel hab
    · intro h
      refine eqvClosure_mono_into ?_ h
      intro a b hab
      exact EqvClosure.rel (Or.inr hab)

theorem nbr_zero {width height depth : ℕ} {u v w : ℕ} {q : Coord} :
    nbr width height depth (u, v, w) 0 = some q
      ↔ u < width ∧ v < height ∧ 1 ≤ w ∧ w - 1 < depth ∧ q = (u, v, w - 1) := by
  have hred : nbr width height depth (u, v, w) 0
      = (if 0 ≤ (u:ℤ) + 0 ∧ (u:ℤ) + 0 < width ∧ 0 ≤ (v:ℤ) + 0 ∧ (v:ℤ) + 0 < height
            ∧ 0 ≤ (w:ℤ) + -1 ∧ (w:ℤ) + -1 < depth then
          some (((u:ℤ) + 0).toNat, ((v:ℤ) + 0).toNat, ((w:ℤ) + -1).toNat)
        else none) := rfl
  rw [hred]
  split_ifs with hc
  · simp only [Option.some.injEq]
    constructor
    · rintro rfl
      obtain ⟨c1, c2, c3, c4, c5, c6⟩ := hc
      refine ⟨by omega, by omega, by omega, by omega, ?_⟩
      refine Prod.ext ?_ (Prod.ext ?_ ?_) <;> simp <;> omega
    · rintro ⟨h1, h2, h3, h4, rfl⟩
      refine (Prod.ext ?_ (Prod.ext ?_ ?_)).symm <;> simp <;> omega
  · constructor
    · rintro h1
      cases h1
    · rintro ⟨h1, h2, h3, h4, rfl⟩
      refine absurd ⟨?_, ?_, ?_, ?_, ?_, ?_⟩ hc <;> omega

theorem nbr_one {width height depth : ℕ} {u v w : ℕ} {q : Coord} :
    nbr width height depth (u, v, w) 1 = some q
      ↔ 1 ≤ u ∧ u - 1 < width ∧ v < height ∧ w < depth ∧ q = (u - 1, v, w) := by
  have hred : nbr width height depth (u, v, w) 1
      = (if 0 ≤ (u:ℤ) + -1 ∧ (u:ℤ) + -1 < width ∧ 0 ≤ (v:ℤ) + 0 ∧ (v:ℤ) + 0 < height
            ∧ 0 ≤ (w:ℤ) + 0 ∧ (w:ℤ) + 0 < depth then
          some (((u:ℤ) + -1).toNat, ((v:ℤ) + 0).toNat, ((w:ℤ) + 0).toNat)
        else none) := rfl
  rw [hred]
  split_ifs with hc
  · simp only [Option.some.injEq]
    constructor
    · rintro rfl
      obtain ⟨c1, c2, c3, c4, c5, c6⟩ := hc
      refine ⟨by omega, by omega, by omega, by omega, ?_⟩
      refine Prod.ext ?_ (Prod.ext ?_ ?_) <;> simp <;> omega
    · rintro ⟨h1, h2, h3, h4, rfl⟩
      refine (Prod.ext ?_ (Prod.ext ?_ ?_)).symm <;> simp <;> omega
  · constructor
    · rintro h1
      cases h1
    · rintro ⟨h1, h2, h3, h4, rfl⟩
      refine absurd ⟨?_, ?_, ?_, ?_, ?_, ?_⟩ hc <;> omega

theorem nbr_two {width height depth : ℕ} {u v w : ℕ} {q : Coord} :
    nbr width height depth (u, v, w) 2 = some q
      ↔ u < width ∧ 1 ≤ v ∧ v - 1 < height ∧ w < depth ∧ q = (u, v - 1, w) := by
  have hred : nbr width height depth (u, v, w) 2
      = (if 0 ≤ (u:ℤ) + 0 ∧ (u:ℤ) + 0 < width ∧ 0 ≤ (v:ℤ) + -1 ∧ (v:ℤ) + -1 < height
            ∧ 0 ≤ (w:ℤ) + 0 ∧ (w:ℤ) + 0 < depth then
          some (((u:ℤ) + 0).toNat, ((v:ℤ) + -1).toNat, ((w:ℤ) + 0).toNat)
        else none) := rfl
  rw [hred]
  split_ifs with hc
  · simp only [Option.some.injEq]
    constructor
    · rintro rfl
      obtain ⟨c1, c2, c3, c4, c5, c6⟩ := hc
      refine ⟨by omega, by omega, by omega, by omega, ?_⟩
      refine Prod.ext ?_ (Prod.ext ?_ ?_) <;> simp <;> omega
    · rintro ⟨h1, h2, h3, h4, rfl⟩
      refine (Prod.ext ?_ (Prod.ext ?_ ?_)).symm <;> simp <;> omega
  · constructor
    · rintro h1
      cases h1
    · rintro ⟨h1, h2, h3, h4, rfl⟩
      refine absurd ⟨?_, ?_, ?_, ?_, ?_, ?_⟩ hc <;> omega

/-- Every pair united by pass 1 joins two in-volume face-adjacent voxels of
equal foreground value. -/
theorem pairGen_adj {width height depth : ℕ} {img : Coord → ℕ}
    {backgroundColor : ℕ} {a b : Coord}
    (h : ∃ p ∈ scanOrder width height depth,
      (a, b) ∈ nbrPairs width height depth img backgroundColor p) :
    adjSameValue width height depth img backgroundColor a b := by
  obtain ⟨p, hp, hmem⟩ := h
  rw [mem_scanOrder] at hp
  obtain ⟨hfg, rfl, i, hi, hq, himg⟩ := nbrPairs_mem.mp hmem
  rcases a with ⟨u, v, w⟩
  interval_cases i
  · obtain ⟨h1, h2, h3, h4, rfl⟩ := nbr_zero.mp hq
    refine ⟨hp, ⟨h1, h2, h4⟩, ?_, himg.symm, hfg⟩
    refine Or.inr (Or.inr ⟨rfl, rfl, ?_⟩)
    unfold nextTo
    simp
    omega
  · obtain ⟨h1, h2, h3, h4, rfl⟩ := nbr_one.mp hq
    refine ⟨hp, ⟨h2, h3, h4⟩, ?_, himg.symm, hfg⟩
    refine Or.inl ⟨?_, rfl, rfl⟩
    unfold nextTo
    simp
    omega
  · obtain ⟨h1, h2, h3, h4, rfl⟩ := nbr_two.mp hq
    refine ⟨hp, ⟨h1, h3, h4⟩, ?_, himg.symm, hfg⟩
    refine Or.inr (Or.inl ⟨rfl, ?_, rfl⟩)
    unfold nextTo
    simp
    omega

/-- Conversely, every in-volume face-adjacent equal-valued foreground pair is
united by pass 1 in one of the two orders (the scan-later voxel sees the
other as its back, left or up neighbour). -/
theorem adj_pairGen {width height depth : ℕ} {img : Coord → ℕ}
    {backgroundColor : ℕ} {a b : Coord}
    (h : adjSameValue width height depth img backgroundColor a b) :
    (∃ p ∈ scanOrder width height depth,
      (a, b) ∈ nbrPairs width height depth img backgroundColor p)
    ∨ (∃ p ∈ scanOrder width height depth,
      (b, a) ∈ nbrPairs width height depth img backgroundColor p) := by
  obtain ⟨ha, hb, hadj, himg, hfg⟩ := h
  rcases a with ⟨u, v, w⟩
  rcases b with ⟨u', v', w'⟩
  obtain ⟨hu, hv, hw⟩ : u < width ∧ v < height ∧ w < depth := ha
  obtain ⟨hu', hv', hw'⟩ : u' < width ∧ v' < height ∧ w' < depth := hb
  have hbfg : img (u', v', w') ≠ backgroundColor := himg ▸ hfg
  have hmema : ((u, v, w) : Coord) ∈ scanOrder width height depth :=
    mem_scanOrder.mpr ⟨hu, hv, hw⟩
  have hmemb : ((u', v', w') : Coord) ∈ scanOrder width height depth :=
    mem_scanOrder.mpr ⟨hu', hv', hw'⟩
  have hadj2 : (nextTo u u' ∧ v = v' ∧ w = w') ∨ (u = u' ∧ nextTo v v' ∧ w = w')
      ∨ (u = u' ∧ v = v' ∧ nextTo w w') := hadj
  rcases hadj2 with ⟨hn, he1, he2⟩ | ⟨he1, hn, he2⟩ | ⟨he1, he2, hn⟩
  · have hn2 : u' = u + 1 ∨ u = u' + 1 := hn
    rcases hn2 with h1 | h1
    · refine Or.inr ⟨(u', v', w'), hmemb, nbrPairs_mem.mpr ?_⟩
      refine ⟨hbfg, rfl, 1, by omega, ?_, himg⟩
      rw [nbr_one]
      refine ⟨by omega, by omega, by omega, by omega, ?_⟩
      rw [← he1, ← he2]
      refine Prod.ext ?_ rfl
      show u = u' - 1
      omega
    · refine Or.inl ⟨(u, v, w), hmema, nbrPairs_mem.mpr ?_⟩
      refine ⟨hfg, rfl, 1, by omega, ?_, himg.symm⟩
      rw [nbr_one]
      refine ⟨by omega, by omega, by omega, by omega, ?_⟩
      rw [he1, he2]
      refine Prod.ext ?_ rfl
      show u' = u - 1
      omega
  · have hn2 : v' = v + 1 ∨ v = v' + 1 := hn
    rcases hn2 with h1 | h1
    · refine Or.inr ⟨(u', v', w'), hmemb, nbrPairs_mem.mpr ?_⟩
      refine ⟨hbfg, rfl, 2, by omega, ?_, himg⟩
      rw [nbr_two]
      refine ⟨by omega, by omega, by omega, by omega, ?_⟩
      rw [← he1, ← he2]
      refine Prod.ext rfl (Prod.ext ?_ rfl)
      show v = v' - 1
      omega
    · refine Or.inl ⟨(u, v, w), hmema, nbrPairs_mem.mpr ?_⟩
      refine ⟨hfg, rfl, 2, by omega, ?_, himg.symm⟩
      rw [nbr_two]
      refine ⟨by omega, by omega, by omega, by omega, ?_⟩
      rw [he1, he2]
      refine Prod.ext rfl (Prod.ext ?_ rfl)
      show v' = v - 1
      omega
  · have hn2 : w' = w + 1 ∨ w = w' + 1 := hn
    rcases hn2 with h1 | h1
    · refine Or.inr ⟨(u', v', w'), hmemb, nbrPairs_mem.mpr ?_⟩
      refine ⟨hbfg, rfl, 0, by omega, ?_, himg⟩
      rw [nbr_zero]
      refine ⟨by omega, by omega, by omega, by omega, ?_⟩
      rw [← he1, ← he2]
      refine Prod.ext rfl (Prod.ext rfl ?_)
      show w = w' - 1
      omega
    · refine Or.inl ⟨(u, v, w), hmema, nbrPairs_mem.mpr ?_⟩
      refine ⟨hfg, rfl, 0, by omega, ?_, himg.symm⟩
      rw [nbr_zero]
      refine ⟨by omega, by omega, by omega, by omega, ?_⟩
      rw [he1, he2]
      refine Prod.ext rfl (Prod.ext rfl ?_)
      show w' = w - 1
      omega

theorem ec_pairGen_iff_ec_adj {width height depth : ℕ} {img : Coord → ℕ}
    {backgroundColor : ℕ} (u v : Coord) :
    EqvClosure (fun a b => ∃ p ∈ scanOrder width height depth,
      (a, b) ∈ nbrPairs width height depth img backgroundColor p) u v
    ↔ EqvClosure (adjSameValue width height depth img backgroundColor) u v := by
  constructor
  · intro h
    refine eqvClosure_mono_into ?_ h
    intro a b hab
    exact EqvClosure.rel (pairGen_adj hab)
  · intro h
    refine eqvClosure_mono_into ?_ h
    intro a b hab
    rcases adj_pairGen hab with h1 | h1
    · exact EqvClosure.rel h1
    · exact EqvClosure.symm (EqvClosure.rel h1)

/-! ### The specification's notion of a same-valued 6-connected path -/

/-- `xs` is a path from `p` to `q` whose steps each move to a face neighbour
and on which every voxel lies in the volume and has the same input value as
the endpoints. -/
def IsSameValuePath (width height depth : ℕ) (img : Coord → ℕ) (p q : Coord)
    (xs : List Coord) : Prop :=
  xs ≠ [] ∧ xs.head? = some p ∧ xs.getLast? = some q
  ∧ List.Chain' faceAdj xs
  ∧ ∀ x ∈ xs, inVolume width height depth x ∧ img x = img p

theorem rtg_symm_of_symm {α : Type} {R : α → α → Prop} (hs : ∀ {a b}, R a b → R b a)
    {a b : α} (h : Relation.ReflTransGen R a b) : Relation.ReflTransGen R b a := by
  induction h with
  | refl => exact Relation.ReflTransGen.refl
  | @tail c d hac hcd ih =>
    exact Relation.ReflTransGen.trans (Relation.ReflTransGen.single (hs hcd)) ih

theorem ec_iff_rtg_symm {α : Type} {R : α → α → Prop} (hs : ∀ {a b}, R a b → R b a)
    {a b : α} : EqvClosure R a b ↔ Relation.ReflTransGen R a b := by
  constructor
  · intro h
    induction h with
    | rel hab => exact Relation.ReflTransGen.single hab
    | refl a => exact Relation.ReflTransGen.refl
    | symm _ ih => exact rtg_symm_of_symm hs ih
    | trans _ _ ih1 ih2 => exact Relation.ReflTransGen.trans ih1 ih2
  · intro h
    induction h with
    | refl => exact EqvClosure.refl _
    | tail hac hcd ih => exact EqvClosure.trans ih (EqvClosure.rel hcd)

theorem path_to_rtg {width height depth : ℕ} {img : Coord → ℕ}
    {backgroundColor : ℕ} :
    ∀ (xs : List Coord) (p q : Coord),
    IsSameValuePath width height depth img p q xs → img p ≠ backgroundColor →
    Relation.ReflTransGen (adjSameValue width height depth img backgroundColor) p q := by
  intro xs
  induction xs with
  | nil =>
    intro p q hpath _
    exact absurd rfl hpath.1
  | cons x rest ih =>
    intro p q hpath hfg
    obtain ⟨hne, hhead, hlast, hchain, hvals⟩ := hpath
    have hxp : x = p := by
      simp only [List.head?_cons, Option.some.injEq] at hhead
      exact hhead
    subst hxp
    cases rest with
    | nil =>
      simp only [List.getLast?_singleton, Option.some.injEq] at hlast
      rw [hlast]
    | cons y rest' =>
      rw [List.chain'_cons] at hchain
      obtain ⟨hadjxy, hchain'⟩ := hchain
      have hx := hvals x (List.mem_cons_self _ _)
      have hy := hvals y (List.mem_cons_of_mem _ (List.mem_cons_self _ _))
      have hstep : adjSameValue width height depth img backgroundColor x y :=
        ⟨hx.1, hy.1, hadjxy, hy.2.symm, hfg⟩
      have htail : IsSameValuePath width height depth img y q (y :: rest') := by
        refine ⟨by simp, by simp, ?_, hchain', ?_⟩
        · rw [← hlast]
          exact List.getLast?_cons_cons.symm
        · intro z hz
          obtain ⟨h1, h2⟩ := hvals z (List.mem_cons_of_mem _ hz)
          exact ⟨h1, by rw [h2, hy.2]⟩
      have hyfg : img y ≠ backgroundColor := by
        rw [hy.2]
        exact hfg
      exact Relation.ReflTransGen.head hstep (ih y q htail hyfg)

theorem rtg_to_path {width height depth : ℕ} {img : Coord → ℕ}
    {backgroundColor : ℕ} {p q : Coord}
    (h : Relation.ReflTransGen (adjSameValue width height depth img backgroundColor) p q) :
    inVolume width height depth p →
    ∃ xs, IsSameValuePath width height depth img p q xs := by
  induction h using Relation.ReflTransGen.head_induction_on with
  | refl =>
    intro hp
    exact ⟨[q], by simp, by simp, by simp, by simp, by
      intro x hx
      simp at hx
      rw [hx]
      exact ⟨hp, rfl⟩⟩
  | @head a c hstep htail ih =>
    intro hp
    obtain ⟨hia, hic, hadj, himg, _⟩ := hstep
    obtain ⟨xs, hne, hhead, hlast, hchain, hvals⟩ := ih hic
    cases xs with
    | nil => exact absurd rfl hne
    | cons x rest =>
      have hxc : x = c := by
        simp only [List.head?_cons, Option.some.injEq] at hhead
        exact hhead
      subst hxc
      refine ⟨a :: x :: rest, by simp, by simp, ?_, ?_, ?_⟩
      · rw [List.getLast?_cons_cons]
        exact hlast
      · rw [List.chain'_cons]
        exact ⟨hadj, hchain⟩
      · intro z hz
        rcases List.mem_cons.mp hz with rfl | hz'
        · exact ⟨hia, rfl⟩
        · obtain ⟨h1, h2⟩ := hvals z hz'
          exact ⟨h1, by rw [h2, ← himg]⟩

/-- The claim's path formulation agrees with the equivalence closure of the
adjacency relation, for in-volume foreground endpoints. -/
theorem path_iff_ec_adj {width height depth : ℕ} {img : Coord → ℕ}
    {backgroundColor : ℕ} {p q : Coord}
    (hp : inVolume width height depth p) (hfg : img p ≠ backgroundColor) :
    (∃ xs, IsSameValuePath width height depth img p q xs)
      ↔ EqvClosure (adjSameValue width height depth img backgroundColor) p q := by
  rw [ec_iff_rtg_symm (fun h => adjSameValue_symm h)]
  constructor
  · rintro ⟨xs, hpath⟩
    exact path_to_rtg xs p q hpath hfg
  · intro h
    exact rtg_to_path h hp

/-! ### Pass-2 bookkeeping lemmas -/

/-- Total pixel count of a statistics vector. -/
def sumCounts (stats : List ComponentStatistics) : ℕ :=
  (stats.map ComponentStatistics.pixelCount_).sum

theorem sumCounts_append (s1 s2 : List ComponentStatistics) :
    sumCounts (s1 ++ s2) = sumCounts s1 + sumCounts s2 := by
  unfold sumCounts
  simp

theorem sumCounts_set_bump (stats : List ComponentStatistics) (idx : ℕ)
    (h : idx < stats.length) :
    sumCounts (stats.set idx
      { stats.get ⟨idx, h⟩ with
          pixelCount_ := (stats.get ⟨idx, h⟩).pixelCount_ + 1 })
      = sumCounts stats + 1 := by
  induction stats generalizing idx with
  | nil => cases h
  | cons e rest ih =>
    cases idx with
    | zero =>
      unfold sumCounts
      simp
      omega
    | succ n =>
      have hn : n < rest.length := by
        simp at h
        omega
      have := ih n hn
      unfold sumCounts at this ⊢
      simp at this ⊢
      omega

theorem bumpCount_ok {stats stats' : List ComponentStatistics} {idx : ℕ}
    (h : bumpCount stats idx = .ok stats') :
    idx < stats.length
    ∧ stats'.length = stats.length
    ∧ sumCounts stats' = sumCounts stats + 1
    ∧ (∀ i : ℕ, (stats'[i]?).map ComponentStatistics.inputLabel_
        = (stats[i]?).map ComponentStatistics.inputLabel_) := by
  unfold bumpCount at h
  split_ifs at h with hlt
  · cases h
    refine ⟨hlt, by simp, sumCounts_set_bump stats idx hlt, ?_⟩
    intro i
    by_cases hi : idx = i
    · subst hi
      rw [List.getElem?_set_self hlt]
      rw [List.getElem?_eq_getElem hlt]
      simp [List.get_eq_getElem]
    · rw [List.getElem?_set_ne hi]

theorem scanOrder_nodup {width height depth : ℕ} :
    (scanOrder width height depth).Nodup := by
  unfold scanOrder
  rw [List.nodup_flatMap]
  constructor
  · intro w _
    rw [List.nodup_flatMap]
    constructor
    · intro v _
      exact (List.nodup_range width).map (fun a b hab => by
        simpa using congrArg Prod.fst hab)
    · refine List.Pairwise.imp ?_ (List.nodup_range height)
      intro v v' hvv
      intro x hx hy
      simp only [List.mem_map] at hx hy
      obtain ⟨u1, _, h1⟩ := hx
      obtain ⟨u2, _, h2⟩ := hy
      rw [← h2] at h1
      have := congrArg (fun t : Coord => t.2.1) h1
      simp at this
      exact hvv this
  · refine List.Pairwise.imp ?_ (List.nodup_range depth)
    intro w w' hww
    intro x hx hy
    simp only [List.mem_flatMap, List.mem_map] at hx hy
    obtain ⟨v1, _, u1, _, h1⟩ := hx
    obtain ⟨v2, _, u2, _, h2⟩ := hy
    rw [← h2] at h1
    have := congrArg (fun t : Coord => t.2.2) h1
    simp at this
    exact hww this

/-- Invariant carried by pass 2 across voxels: the forest keeps its roots and
rank discipline, the label counter is never parked on the reserved background
label, labelled roots carry distinct labels strictly below the counter (and
different from the background label), and the statistics vector grows in
lockstep with the counter. -/
def InvA (backgroundLabel B : ℕ) (s1 : UFState Coord) (st : Pass2State) : Prop :=
  RankIncr st.uf
  ∧ (∀ j, st.uf.rank_ j ≤ B)
  ∧ (∀ k m, RootOf st.uf k m ↔ RootOf s1 k m)
  ∧ st.label ≠ backgroundLabel
  ∧ (∀ i, st.uf.hasLabel_ i = true →
      st.uf.label_ i < st.label ∧ st.uf.label_ i ≠ backgroundLabel)
  ∧ (∀ i j, st.uf.hasLabel_ i = true → st.uf.hasLabel_ j = true → i ≠ j →
      st.uf.label_ i ≠ st.uf.label_ j)
  ∧ st.statistics.length = st.label

/-- What pass 2 has established about an already-processed voxel `p`. -/
def trackedOut (img : Coord → ℕ) (backgroundColor backgroundLabel : ℕ)
    (s1 : UFState Coord) (st : Pass2State) (p : Coord) : Prop :=
  (img p = backgroundColor → st.out p = backgroundLabel)
  ∧ (img p ≠ backgroundColor → ∃ r, RootOf s1 p r ∧ st.uf.hasLabel_ r = true
      ∧ st.out p = st.uf.label_ r ∧ st.out p ≠ backgroundLabel ∧ st.out p < st.label)

theorem tracked_mono {img : Coord → ℕ} {backgroundColor backgroundLabel : ℕ}
    {s1 : UFState Coord} {st st' : Pass2State} {p : Coord}
    (hout : ∀ x, x ≠ p → st'.out x = st.out x)
    (hfrozen : ∀ i, st.uf.hasLabel_ i = true →
      st'.uf.hasLabel_ i = true ∧ st'.uf.label_ i = st.uf.label_ i)
    (hc : st.label ≤ st'.label) (x : Coord) (hx : x ≠ p)
    (ht : trackedOut img backgroundColor backgroundLabel s1 st x) :
    trackedOut img backgroundColor backgroundLabel s1 st' x := by
  obtain ⟨ht1, ht2⟩ := ht
  refine ⟨?_, ?_⟩
  · intro hxbg
    rw [hout x hx]
    exact ht1 hxbg
  · intro hxfg
    obtain ⟨r, hr1, hr2, hr3, hr4, hr5⟩ := ht2 hxfg
    obtain ⟨hf1, hf2⟩ := hfrozen r hr2
    refine ⟨r, hr1, hf1, ?_, ?_, ?_⟩
    · rw [hout x hx, hf2]
      exact hr3
    · rw [hout x hx]
      exact hr4
    · rw [hout x hx]
      omega

theorem assign_hlabs {uf : UFState Coord} {root : Coord} {c c2 Lbg : ℕ}
    (hlabs : ∀ i, uf.hasLabel_ i = true → uf.label_ i < c ∧ uf.label_ i ≠ Lbg)
    (hc : c < c2) (hcne : c ≠ Lbg) :
    ∀ i, updFn uf.hasLabel_ root true i = true →
      updFn uf.label_ root c i < c2 ∧ updFn uf.label_ root c i ≠ Lbg := by
  intro i hi
  by_cases hir : i = root
  · rw [hir, updFn_same]
    exact ⟨hc, hcne⟩
  · rw [updFn_other _ _ _ _ hir] at hi ⊢
    obtain ⟨h1, h2⟩ := hlabs i hi
    exact ⟨by omega, h2⟩

theorem assign_hinj {uf : UFState Coord} {root : Coord} {c Lbg : ℕ}
    (hlabs : ∀ i, uf.hasLabel_ i = true → uf.label_ i < c ∧ uf.label_ i ≠ Lbg)
    (hinj : ∀ i j, uf.hasLabel_ i = true → uf.hasLabel_ j = true → i ≠ j →
      uf.label_ i ≠ uf.label_ j) :
    ∀ i j, updFn uf.hasLabel_ root true i = true →
      updFn uf.hasLabel_ root true j = true → i ≠ j →
      updFn uf.label_ root c i ≠ updFn uf.label_ root c j := by
  intro i j hi hj hij
  by_cases hir : i = root <;> by_cases hjr : j = root
  · exact absurd (hir.trans hjr.symm) hij
  · rw [hir, updFn_same, updFn_other _ _ _ _ hjr]
    rw [updFn_other _ _ _ _ hjr] at hj
    have := (hlabs j hj).1
    omega
  · rw [hjr, updFn_same, updFn_other _ _ _ _ hir]
    rw [updFn_other _ _ _ _ hir] at hi
    have := (hlabs i hi).1
    omega
  · rw [updFn_other _ _ _ _ hir, updFn_other _ _ _ _ hjr]
    rw [updFn_other _ _ _ _ hir] at hi
    rw [updFn_other _ _ _ _ hjr] at hj
    exact hinj i j hi hj hij

theorem assign_frozen {uf : UFState Coord} {root : Coord} {c : ℕ}
    (hhas : uf.hasLabel_ root = false) :
    ∀ i, uf.hasLabel_ i = true →
      updFn uf.hasLabel_ root true i = true ∧ updFn uf.label_ root c i = uf.label_ i := by
  intro i hi
  have hir : i ≠ root := by
    intro h
    rw [h, hhas] at hi
    cases hi
  rw [updFn_other _ _ _ _ hir, updFn_other _ _ _ _ hir]
  exact ⟨hi, rfl⟩

theorem pass2Step_ok_spec {img : Coord → ℕ} {backgroundColor backgroundLabel fuel B : ℕ}
    {s1 : UFState Coord} {st st' : Pass2State} {p : Coord}
    (hfuel : B < fuel)
    (hInv : InvA backgroundLabel B s1 st)
    (hok : pass2Step img backgroundColor backgroundLabel fuel st p = .ok st') :
    InvA backgroundLabel B s1 st'
    ∧ (∀ i, st.uf.hasLabel_ i = true →
        st'.uf.hasLabel_ i = true ∧ st'.uf.label_ i = st.uf.label_ i)
    ∧ st.label ≤ st'.label
    ∧ (∀ x, x ≠ p → st'.out x = st.out x)
    ∧ (∀ x, x ≠ p → trackedOut img backgroundColor backgroundLabel s1 st x →
        trackedOut img backgroundColor backgroundLabel s1 st' x)
    ∧ trackedOut img backgroundColor backgroundLabel s1 st' p
    ∧ sumCounts st'.statistics = sumCounts st.statistics + 1
    ∧ (∀ i : ℕ, i < st.statistics.length →
        (st'.statistics[i]?).map ComponentStatistics.inputLabel_
          = (st.statistics[i]?).map ComponentStatistics.inputLabel_)
    ∧ st.statistics.length ≤ st'.statistics.length
    ∧ (backgroundLabel = 0 →
        st'.label = st.label ∨ (st'.label = st.label + 1 ∧ st'.out p = st.label)) := by
  obtain ⟨hR, hB, hroots, hcne, hlabs, hinj, hlock⟩ := hInv
  unfold pass2Step at hok
  by_cases hbg : img p = backgroundColor
  · rw [if_pos hbg] at hok
    cases hb : bumpCount st.statistics backgroundLabel with
    | error e =>
      rw [hb] at hok
      cases hok
    | ok stats =>
      rw [hb] at hok
      cases hok
      obtain ⟨hblt, hblen, hbsum, hbinp⟩ := bumpCount_ok hb
      refine ⟨⟨hR, hB, hroots, hcne, hlabs, hinj, by rw [hblen]; exact hlock⟩,
        fun i hi => ⟨hi, rfl⟩, le_rfl, fun x hx => updFn_other _ _ _ _ hx,
        ?_, ?_, hbsum, fun i _ => hbinp i, by rw [hblen], fun _ => Or.inl rfl⟩
      · intro x hx ht
        refine tracked_mono ?_ ?_ ?_ x hx ht
        · exact fun y hy => updFn_other _ _ _ _ hy
        · exact fun i hi => ⟨hi, rfl⟩
        · exact le_rfl
      · exact ⟨fun _ => updFn_same _ _ _, fun hfg => absurd hbg hfg⟩
  · rw [if_neg hbg] at hok
    dsimp only at hok
    have hfp : ∀ j, st.uf.rank_ j < st.uf.rank_ p + fuel := fun j => by
      have := hB j
      omega
    obtain ⟨F1, F2, F3, F4, F5, _, _, F8⟩ := find_spec fuel st.uf p hR hfp
    set uf0 := (UFState.find fuel st.uf p).1 with huf0
    set root := (UFState.find fuel st.uf p).2 with hroot
    have hroots0 : ∀ k m, RootOf uf0 k m ↔ RootOf s1 k m := fun k m =>
      (F8 k m).trans (hroots k m)
    have hroot1 : RootOf s1 p root := (hroots p root).mp F1
    have hB0 : ∀ j, uf0.rank_ j ≤ B := fun j => by
      have h := hB j
      rw [← F2] at h
      exact h
    have hlabs0 : ∀ i, uf0.hasLabel_ i = true →
        uf0.label_ i < st.label ∧ uf0.label_ i ≠ backgroundLabel := by
      intro i hi
      rw [F4]
      rw [F3] at hi
      exact hlabs i hi
    have hinj0 : ∀ i j, uf0.hasLabel_ i = true → uf0.hasLabel_ j = true → i ≠ j →
        uf0.label_ i ≠ uf0.label_ j := by
      intro i j hi hj hij
      rw [F4]
      rw [F3] at hi hj
      exact hinj i j hi hj hij
    have hfroz0 : ∀ i, st.uf.hasLabel_ i = true →
        uf0.hasLabel_ i = true ∧ uf0.label_ i = st.uf.label_ i := by
      intro i hi
      rw [F3, F4]
      exact ⟨hi, rfl⟩
    by_cases hhas : uf0.hasLabel_ root = false
    · rw [if_pos hhas] at hok
      by_cases hmax : st.label = U_MAX
      · rw [if_pos hmax] at hok
        cases hok
      · rw [if_neg hmax] at hok
        have hfroz1 : ∀ i, st.uf.hasLabel_ i = true →
            updFn uf0.hasLabel_ root true i = true
            ∧ updFn uf0.label_ root st.label i = st.uf.label_ i := by
          intro i hi
          obtain ⟨h1, h2⟩ := hfroz0 i hi
          obtain ⟨h3, h4⟩ := assign_frozen hhas i h1
          exact ⟨h3, by rw [h4, h2]⟩
        by_cases hskip : st.label + 1 = backgroundLabel
        · rw [if_pos hskip] at hok
          by_cases hmax2 : st.label + 1 = U_MAX
          · rw [if_pos hmax2] at hok
            cases hok
          · rw [if_neg hmax2] at hok
            dsimp only at hok
            rw [updFn_same uf0.label_ root st.label] at hok
            cases hb : bumpCount (st.statistics ++ [⟨0, img p⟩] ++ [⟨0, backgroundColor⟩])
                st.label with
            | error e =>
              rw [hb] at hok
              cases hok
            | ok stats2 =>
              rw [hb] at hok
              cases hok
              obtain ⟨hblt, hblen, hbsum, hbinp⟩ := bumpCount_ok hb
              refine ⟨⟨fun a b hab => F5 a b hab, fun j => hB0 j, fun k m => hroots0 k m,
                (show st.label + 2 ≠ backgroundLabel by omega),
                assign_hlabs hlabs0 (show st.label < st.label + 2 by omega) hcne,
                assign_hinj hlabs0 hinj0, ?_⟩,
                hfroz1, (show st.label ≤ st.label + 2 by omega), fun x hx => updFn_other _ _ _ _ hx,
                ?_, ?_, ?_, ?_, ?_, ?_⟩
              · show stats2.length = st.label + 2
                rw [hblen]
                simp [hlock]
              · intro x hx ht
                refine tracked_mono ?_ ?_ ?_ x hx ht
                · exact fun y hy => updFn_other _ _ _ _ hy
                · exact hfroz1
                · show st.label ≤ st.label + 2
                  omega
              · refine ⟨fun h => absurd h hbg, fun _ => ⟨root, hroot1, ?_, ?_, ?_, ?_⟩⟩
                · exact updFn_same _ _ _
                · show updFn st.out p st.label p = updFn uf0.label_ root st.label root
                  rw [updFn_same, updFn_same]
                · show updFn st.out p st.label p ≠ backgroundLabel
                  rw [updFn_same]
                  exact hcne
                · show updFn st.out p st.label p < st.label + 2
                  rw [updFn_same]
                  omega
              · show sumCounts stats2 = sumCounts st.statistics + 1
                rw [hbsum, sumCounts_append, sumCounts_append]
                unfold sumCounts
                simp
              · intro i hi
                rw [hbinp i, List.getElem?_append_left (by simp; omega),
                  List.getElem?_append_left hi]
              · show st.statistics.length ≤ stats2.length
                rw [hblen]
                simp
              · intro h
                rw [h] at hskip
                omega
        · rw [if_neg hskip] at hok
          dsimp only at hok
          rw [updFn_same uf0.label_ root st.label] at hok
          cases hb : bumpCount (st.statistics ++ [⟨0, img p⟩]) st.label with
          | error e =>
            rw [hb] at hok
            cases hok
          | ok stats2 =>
            rw [hb] at hok
            cases hok
            obtain ⟨hblt, hblen, hbsum, hbinp⟩ := bumpCount_ok hb
            refine ⟨⟨fun a b hab => F5 a b hab, fun j => hB0 j, fun k m => hroots0 k m,
              fun h => hskip h,
              assign_hlabs hlabs0 (show st.label < st.label + 1 by omega) hcne,
              assign_hinj hlabs0 hinj0, ?_⟩,
              hfroz1, (show st.label ≤ st.label + 1 by omega), fun x hx => updFn_other _ _ _ _ hx,
              ?_, ?_, ?_, ?_, ?_, ?_⟩
            · show stats2.length = st.label + 1
              rw [hblen]
              simp [hlock]
            · intro x hx ht
              refine tracked_mono ?_ ?_ ?_ x hx ht
              · exact fun y hy => updFn_other _ _ _ _ hy
              · exact hfroz1
              · show st.label ≤ st.label + 1
                omega
            · refine ⟨fun h => absurd h hbg, fun _ => ⟨root, hroot1, ?_, ?_, ?_, ?_⟩⟩
              · exact updFn_same _ _ _
              · show updFn st.out p st.label p = updFn uf0.label_ root st.label root
                rw [updFn_same, updFn_same]
              · show updFn st.out p st.label p ≠ backgroundLabel
                rw [updFn_same]
                exact hcne
              · show updFn st.out p st.label p < st.label + 1
                rw [updFn_same]
                omega
            · show sumCounts stats2 = sumCounts st.statistics + 1
              rw [hbsum, sumCounts_append]
              unfold sumCounts
              simp
            · intro i hi
              rw [hbinp i, List.getElem?_append_left hi]
            · show st.statistics.length ≤ stats2.length
              rw [hblen]
              simp
            · intro h
              refine Or.inr ⟨rfl, ?_⟩
              show updFn st.out p st.label p = st.label
              rw [updFn_same]
    · rw [if_neg hhas] at hok
      have hhast : uf0.hasLabel_ root = true := by
        cases h : uf0.hasLabel_ root
        · exact absurd h hhas
        · rfl
      dsimp only at hok
      cases hb : bumpCount st.statistics (uf0.label_ root) with
      | error e =>
        rw [hb] at hok
        cases hok
      | ok stats2 =>
        rw [hb] at hok
        cases hok
        obtain ⟨hblt, hblen, hbsum, hbinp⟩ := bumpCount_ok hb
        refine ⟨⟨fun a b hab => F5 a b hab, fun j => hB0 j, fun k m => hroots0 k m,
          hcne, fun i hi => hlabs0 i hi, fun i j hi hj hij => hinj0 i j hi hj hij, ?_⟩,
          hfroz0, le_rfl, fun x hx => updFn_other _ _ _ _ hx,
          ?_, ?_, ?_, fun i _ => hbinp i, ?_, fun _ => Or.inl rfl⟩
        · show stats2.length = st.label
          rw [hblen]
          exact hlock
        · intro x hx ht
          refine tracked_mono ?_ ?_ ?_ x hx ht
          · exact fun y hy => updFn_other _ _ _ _ hy
          · exact hfroz0
          · exact le_rfl
        · refine ⟨fun h => absurd h hbg, fun _ => ⟨root, hroot1, hhast, ?_, ?_, ?_⟩⟩
          · exact updFn_same _ _ _
          · show updFn st.out p (uf0.label_ root) p ≠ backgroundLabel
            rw [updFn_same]
            exact (hlabs0 root hhast).2
          · show updFn st.out p (uf0.label_ root) p < st.label
            rw [updFn_same]
            exact (hlabs0 root hhast).1
        · exact hbsum
        · show st.statistics.length ≤ stats2.length
          rw [hblen]

theorem pass2_fold_spec {img : Coord → ℕ} {backgroundColor backgroundLabel fuel B : ℕ}
    {s1 : UFState Coord} (Q : Coord → Prop) (l : List Coord) :
    ∀ (st st' : Pass2State),
    B < fuel →
    InvA backgroundLabel B s1 st →
    l.foldlM (pass2Step img backgroundColor backgroundLabel fuel) st = .ok st' →
    l.Nodup →
    (∀ p ∈ l, Q p) →
    InvA backgroundLabel B s1 st'
    ∧ (∀ i, st.uf.hasLabel_ i = true →
        st'.uf.hasLabel_ i = true ∧ st'.uf.label_ i = st.uf.label_ i)
    ∧ st.label ≤ st'.label
    ∧ (∀ x, x ∉ l → st'.out x = st.out x)
    ∧ (∀ x, x ∉ l → trackedOut img backgroundColor backgroundLabel s1 st x →
        trackedOut img backgroundColor backgroundLabel s1 st' x)
    ∧ (∀ x ∈ l, trackedOut img backgroundColor backgroundLabel s1 st' x)
    ∧ sumCounts st'.statistics = sumCounts st.statistics + l.length
    ∧ (∀ i : ℕ, i < st.statistics.length →
        (st'.statistics[i]?).map ComponentStatistics.inputLabel_
          = (st.statistics[i]?).map ComponentStatistics.inputLabel_)
    ∧ st.statistics.length ≤ st'.statistics.length
    ∧ (backgroundLabel = 0 →
        (st.label = 1 ∨ ∃ x, Q x ∧ x ∉ l ∧ st.out x + 1 = st.label) →
        (st'.label = 1 ∨ ∃ x, Q x ∧ st'.out x + 1 = st'.label)) := by
  induction l with
  | nil =>
    intro st st' hfuel hInv hok hnd hQ
    rw [List.foldlM_nil] at hok
    cases hok
    refine ⟨hInv, fun i hi => ⟨hi, rfl⟩, le_rfl, fun x _ => rfl, fun x _ ht => ht,
      fun x hx => absurd hx (List.not_mem_nil x), by simp, fun i _ => rfl, le_rfl, ?_⟩
    intro h0 hpre
    rcases hpre with h1 | ⟨x, hQx, _, hx⟩
    · exact Or.inl h1
    · exact Or.inr ⟨x, hQx, hx⟩
  | cons p tl ih =>
    intro st st' hfuel hInv hok hnd hQ
    rw [List.foldlM_cons] at hok
    cases h1 : pass2Step img backgroundColor backgroundLabel fuel st p with
    | error e =>
      rw [h1] at hok
      cases hok
    | ok st1 =>
      rw [h1] at hok
      have hok2 : tl.foldlM (pass2Step img backgroundColor backgroundLabel fuel) st1
          = .ok st' := hok
      obtain ⟨sInv, sfroz, smono, sout, spres, strp, ssum, sinp, slen, scnt⟩ :=
        pass2Step_ok_spec hfuel hInv h1
      obtain ⟨hnd1, hnd2⟩ := List.nodup_cons.mp hnd
      obtain ⟨iInv, ifroz, imono, iout, ipres, itrk, isum, iinp, ilen, icnt⟩ :=
        ih st1 st' hfuel sInv hok2 hnd2 (fun q hq => hQ q (List.mem_cons_of_mem p hq))
      have hpnt : p ∉ tl := hnd1
      refine ⟨iInv, ?_, le_trans smono imono, ?_, ?_, ?_,
        by rw [isum, ssum]; simp; omega, ?_, le_trans slen ilen, ?_⟩
      · intro i hi
        obtain ⟨h2, h3⟩ := sfroz i hi
        obtain ⟨h4, h5⟩ := ifroz i h2
        exact ⟨h4, by rw [h5, h3]⟩
      · intro x hx
        have hxp : x ≠ p := fun h => hx (h ▸ List.mem_cons_self p tl)
        have hxtl : x ∉ tl := fun h => hx (List.mem_cons_of_mem p h)
        rw [iout x hxtl, sout x hxp]
      · intro x hx ht
        have hxp : x ≠ p := fun h => hx (h ▸ List.mem_cons_self p tl)
        have hxtl : x ∉ tl := fun h => hx (List.mem_cons_of_mem p h)
        exact ipres x hxtl (spres x hxp ht)
      · intro x hx
        rcases List.mem_cons.mp hx with hxp | hxtl
        · by_cases hptl : x ∈ tl
          · exact itrk x hptl
          · exact ipres x hptl (hxp ▸ strp)
        · exact itrk x hxtl
      · intro i hi
        rw [iinp i (lt_of_lt_of_le hi slen), sinp i hi]
      · intro h0 hpre
        refine icnt h0 ?_
        rcases scnt h0 with hsame | ⟨hinc, houtp⟩
        · rcases hpre with h1' | ⟨x, hQx, hxl, hx⟩
          · exact Or.inl (hsame ▸ h1')
          · have hxp : x ≠ p := fun h => hxl (h ▸ List.mem_cons_self p tl)
            have hxtl : x ∉ tl := fun h => hxl (List.mem_cons_of_mem p h)
            refine Or.inr ⟨x, hQx, hxtl, ?_⟩
            rw [sout x hxp, hsame]
            exact hx
        · refine Or.inr ⟨p, hQ p (List.mem_cons_self p tl), hpnt, ?_⟩
          rw [houtp, hinc]

theorem fcc_master {width height depth : ℕ} {img : Coord → ℕ}
    {backgroundColor backgroundLabel : ℕ} {out0 : Coord → ℕ}
    {out : Coord → ℕ} {stats : List ComponentStatistics}
    (hok : findConnectedComponents3d width height depth img backgroundColor out0
      backgroundLabel = .ok (out, stats)) :
    ∃ (s1 : UFState Coord) (lab : ℕ),
      (∀ u v, sameRoot s1 u v ↔
        EqvClosure (adjSameValue width height depth img backgroundColor) u v)
      ∧ lab ≠ backgroundLabel
      ∧ stats.length = lab
      ∧ sumCounts stats = width * height * depth
      ∧ (∀ p, inVolume width height depth p → img p = backgroundColor →
          out p = backgroundLabel)
      ∧ (∀ p, inVolume width height depth p → img p ≠ backgroundColor →
          out p ≠ backgroundLabel ∧ out p < lab)
      ∧ (∀ p q, inVolume width height depth p → inVolume width height depth q →
          img p ≠ backgroundColor → img q ≠ backgroundColor →
          (out p = out q ↔ sameRoot s1 p q))
      ∧ (backgroundLabel = 0 →
          (stats[0]?).map ComponentStatistics.inputLabel_ = some backgroundColor)
      ∧ (backgroundLabel = 0 → ∀ p, inVolume width height depth p → out p < lab)
      ∧ (backgroundLabel = 0 → 0 < width * height * depth →
          ∃ p, inVolume width height depth p ∧ out p + 1 = lab) := by
  unfold findConnectedComponents3d at hok
  cases hp1 : pass1 width height depth img backgroundColor with
  | error e =>
    rw [hp1] at hok
    cases hok
  | ok uf =>
  rw [hp1] at hok
  dsimp only at hok
  cases hp2 : (scanOrder width height depth).foldlM
      (pass2Step img backgroundColor backgroundLabel (ccFuel width height depth))
      (pass2Init backgroundColor backgroundLabel uf out0) with
  | error e =>
    rw [hp2] at hok
    cases hok
  | ok st =>
  rw [hp2] at hok
  injection hok with hok1
  injection hok1 with ho hs
  subst ho
  subst hs
  obtain ⟨p1R, p1B, p1lab, p1lbl, p1same⟩ := pass1_spec hp1
  have hInv0 : InvA backgroundLabel (3 * (width * height * depth)) uf
      (pass2Init backgroundColor backgroundLabel uf out0) := by
    unfold pass2Init
    by_cases hL : (0 : ℕ) = backgroundLabel
    · rw [if_pos hL]
      refine ⟨p1R, p1B, fun k m => Iff.rfl, ?_, ?_, ?_, rfl⟩
      · show (1 : ℕ) ≠ backgroundLabel
        omega
      · intro i hi
        have hi2 : uf.hasLabel_ i = true := hi
        rw [p1lab] at hi2
        simp [UFState.init] at hi2
      · intro i j hi _ _
        have hi2 : uf.hasLabel_ i = true := hi
        rw [p1lab] at hi2
        simp [UFState.init] at hi2
    · rw [if_neg hL]
      refine ⟨p1R, p1B, fun k m => Iff.rfl, ?_, ?_, ?_, rfl⟩
      · show (0 : ℕ) ≠ backgroundLabel
        exact hL
      · intro i hi
        have hi2 : uf.hasLabel_ i = true := hi
        rw [p1lab] at hi2
        simp [UFState.init] at hi2
      · intro i j hi _ _
        have hi2 : uf.hasLabel_ i = true := hi
        rw [p1lab] at hi2
        simp [UFState.init] at hi2
  have hfuel : 3 * (width * height * depth) < ccFuel width height depth := by
    unfold ccFuel
    omega
  obtain ⟨fInv, _, _, _, _, ftrk, fsum, finp, _, fcnt⟩ :=
    pass2_fold_spec (inVolume width height depth) (scanOrder width height depth)
      (pass2Init backgroundColor backgroundLabel uf out0) st hfuel hInv0 hp2
      scanOrder_nodup (fun p hp => mem_scanOrder.mp hp)
  obtain ⟨stR, stB, stRoots, stcne, sthlabs, sthinj, stlock⟩ := fInv
  have hsum0 : sumCounts (pass2Init backgroundColor backgroundLabel uf out0).statistics
      = 0 := by
    unfold pass2Init
    split_ifs <;> simp [sumCounts]
  refine ⟨uf, st.label, fun u v => (p1same u v).trans (ec_pairGen_iff_ec_adj u v),
    stcne, stlock, ?_, ?_, ?_, ?_, ?_, ?_, ?_⟩
  · rw [fsum, hsum0, scanOrder_length]
    omega
  · intro p hp hbg
    exact (ftrk p (mem_scanOrder.mpr hp)).1 hbg
  · intro p hp hfg
    obtain ⟨r, _, _, _, hne, hlt⟩ := (ftrk p (mem_scanOrder.mpr hp)).2 hfg
    exact ⟨hne, hlt⟩
  · intro p q hp hq hfgp hfgq
    obtain ⟨rp, hrp, hlp, hep, _, _⟩ := (ftrk p (mem_scanOrder.mpr hp)).2 hfgp
    obtain ⟨rq, hrq, hlq, heq2, _, _⟩ := (ftrk q (mem_scanOrder.mpr hq)).2 hfgq
    constructor
    · intro heq
      by_cases hr : rp = rq
      · exact ⟨rp, hrp, hr ▸ hrq⟩
      · exfalso
        refine sthinj rp rq hlp hlq hr ?_
        rw [← hep, ← heq2, heq]
    · rintro ⟨r, h1, h2⟩
      have e1 : rp = r := rootOf_unique hrp h1
      have e2 : rq = r := rootOf_unique hrq h2
      rw [hep, heq2, e1, e2]
  · intro hL0
    have hinit : pass2Init backgroundColor backgroundLabel uf out0
        = ⟨uf, 1, [⟨0, backgroundColor⟩], out0⟩ := by
      unfold pass2Init
      rw [if_pos hL0.symm]
    rw [hinit] at finp
    have h01 : (0 : ℕ) < ([⟨0, backgroundColor⟩] : List ComponentStatistics).length := by
      simp
    have := finp 0 h01
    rw [this]
    simp
  · intro hL0 p hp
    rcases Classical.em (img p = backgroundColor) with hbg | hfg
    · have h1 : st.out p = backgroundLabel := (ftrk p (mem_scanOrder.mpr hp)).1 hbg
      rw [h1, hL0]
      omega
    · obtain ⟨r, _, _, _, _, hlt⟩ := (ftrk p (mem_scanOrder.mpr hp)).2 hfg
      exact hlt
  · intro hL0 hvol
    have hinit : pass2Init backgroundColor backgroundLabel uf out0
        = ⟨uf, 1, [⟨0, backgroundColor⟩], out0⟩ := by
      unfold pass2Init
      rw [if_pos hL0.symm]
    rw [hinit] at fcnt
    rcases fcnt hL0 (Or.inl rfl) with h1 | ⟨x, hQx, hx⟩
    · have hw : 0 < width := by
        rcases Nat.eq_zero_or_pos width with h | h
        · rw [h] at hvol
          simp at hvol
        · exact h
      have hh : 0 < height := by
        rcases Nat.eq_zero_or_pos height with h | h
        · rw [h] at hvol
          simp at hvol
        · exact h
      have hd : 0 < depth := by
        rcases Nat.eq_zero_or_pos depth with h | h
        · rw [h] at hvol
          simp at hvol
        · exact h
      have hp0 : inVolume width height depth (0, 0, 0) := ⟨hw, hh, hd⟩
      have hlt : st.out (0, 0, 0) < st.label := by
        rcases Classical.em (img (0, 0, 0) = backgroundColor) with hbg | hfg
        · have h2 : st.out (0, 0, 0) = backgroundLabel :=
            (ftrk _ (mem_scanOrder.mpr hp0)).1 hbg
          rw [h2, hL0]
          omega
        · obtain ⟨r, _, _, _, _, hlt⟩ := (ftrk _ (mem_scanOrder.mpr hp0)).2 hfg
          exact hlt
      refine ⟨(0, 0, 0), hp0, ?_⟩
      omega
    · exact ⟨x, hQx, hx⟩

/-- Maximum output label over the volume, the "max label assigned" of the
spec's count sentence (background label included). -/
def maxLabel (width height depth : ℕ) (out : Coord → ℕ) : ℕ :=
  ((scanOrder width height depth).map out).foldl Nat.max 0

theorem foldl_max_acc (l : List ℕ) : ∀ acc : ℕ, acc ≤ l.foldl Nat.max acc := by
  induction l with
  | nil => intro acc; exact le_rfl
  | cons a t ih =>
    intro acc
    exact le_trans (Nat.le_max_left acc a) (ih (Nat.max acc a))

theorem le_foldl_max {l : List ℕ} {x : ℕ} (hx : x ∈ l) :
    ∀ acc : ℕ, x ≤ l.foldl Nat.max acc := by
  induction l with
  | nil => cases hx
  | cons a t ih =>
    intro acc
    rcases List.mem_cons.mp hx with h | h
    · subst h
      exact le_trans (Nat.le_max_right acc x) (foldl_max_acc t (Nat.max acc x))
    · exact ih h (Nat.max acc a)

theorem foldl_max_le {l : List ℕ} {m : ℕ} (hl : ∀ x ∈ l, x ≤ m) :
    ∀ acc : ℕ, acc ≤ m → l.foldl Nat.max acc ≤ m := by
  induction l with
  | nil => intro acc hacc; exact hacc
  | cons a t ih =>
    intro acc hacc
    refine ih (fun x hx => hl x (List.mem_cons_of_mem a hx)) (Nat.max acc a) ?_
    exact Nat.max_le.mpr ⟨hacc, hl a (List.mem_cons_self a t)⟩

/-- A 2x2x1 checkerboard: value 1 on the diagonal voxels, 0 off it. -/
def imgCheckerboard : Coord → ℕ := fun p => if p.1 = p.2.1 then 1 else 0

/-- C1: after a successful `findConnectedComponents3d` call, two in-range
foreground voxels are written the same output label iff a path of face
neighbours joins them on which every voxel has their input value; and the
2x2x1 checkerboard volume `[[1,0],[0,1]]` with background 0 yields distinct
labels for its two foreground voxels. -/
theorem components_connectivity :
    (∀ (width height depth : ℕ) (img : Coord → ℕ)
      (backgroundColor : ℕ) (out0 : Coord → ℕ) (backgroundLabel : ℕ),
      fccOk width height depth img backgroundColor out0 backgroundLabel = true →
      ∀ p q, inVolume width height depth p → inVolume width height depth q →
        img p ≠ backgroundColor → img q ≠ backgroundColor →
        (fccOut width height depth img backgroundColor out0 backgroundLabel p
          = fccOut width height depth img backgroundColor out0 backgroundLabel q
          ↔ ∃ xs, IsSameValuePath width height depth img p q xs))
    ∧ fccOut 2 2 1 imgCheckerboard 0 (fun _ => 0) 0 (0, 0, 0)
        ≠ fccOut 2 2 1 imgCheckerboard 0 (fun _ => 0) 0 (1, 1, 0) := by
  constructor
  · intro width height depth img backgroundColor out0 backgroundLabel hokb p q hp hq hfgp hfgq
    unfold fccOk at hokb
    cases h : findConnectedComponents3d width height depth img backgroundColor out0
        backgroundLabel with
    | error e =>
      rw [h] at hokb
      cases hokb
    | ok r =>
      rcases r with ⟨out, stats⟩
      have hout : fccOut width height depth img backgroundColor out0 backgroundLabel
          = out := by
        unfold fccOut
        rw [h]
      obtain ⟨s1, lab, hsame, _, _, _, _, _, hiff, _, _, _⟩ := fcc_master h
      rw [hout]
      rw [hiff p q hp hq hfgp hfgq, hsame p q, ← path_iff_ec_adj hp hfgp]
  · decide

theorem components_connectivity_witness :
    fccOk 2 2 1 imgCheckerboard 0 (fun _ => 0) 0 = true
    ∧ (fccOut 2 2 1 imgCheckerboard 0 (fun _ => 0) 0 (0, 0, 0)
        = fccOut 2 2 1 imgCheckerboard 0 (fun _ => 0) 0 (0, 0, 0)
        ↔ ∃ xs, IsSameValuePath 2 2 1 imgCheckerboard (0, 0, 0) (0, 0, 0) xs) :=
  ⟨by decide,
    components_connectivity.1 2 2 1 imgCheckerboard 0 (fun _ => 0) 0 (by decide)
      (0, 0, 0) (0, 0, 0) (by decide) (by decide) (by decide) (by decide)⟩

/-- C10: a successful `findConnectedComponents3d` call never writes the
reserved background label to an in-range voxel whose input value differs from
the background value. -/
theorem foreground_not_background_label :
    ∀ (width height depth : ℕ) (img : Coord → ℕ)
      (backgroundColor : ℕ) (out0 : Coord → ℕ) (backgroundLabel : ℕ),
      fccOk width height depth img backgroundColor out0 backgroundLabel = true →
      ∀ p, inVolume width height depth p → img p ≠ backgroundColor →
        fccOut width height depth img backgroundColor out0 backgroundLabel p
          ≠ backgroundLabel := by
  intro width height depth img backgroundColor out0 backgroundLabel hokb p hp hfg
  unfold fccOk at hokb
  cases h : findConnectedComponents3d width height depth img backgroundColor out0
      backgroundLabel with
  | error e =>
    rw [h] at hokb
    cases hokb
  | ok r =>
    rcases r with ⟨out, stats⟩
    have hout : fccOut width height depth img backgroundColor out0 backgroundLabel
        = out := by
      unfold fccOut
      rw [h]
    obtain ⟨s1, lab, _, _, _, _, _, hfgout, _, _, _, _⟩ := fcc_master h
    rw [hout]
    exact (hfgout p hp hfg).1

theorem foreground_not_background_label_witness :
    fccOk 1 1 1 (fun _ => 5) 0 (fun _ => 0) 0 = true
    ∧ fccOut 1 1 1 (fun _ => 5) 0 (fun _ => 0) 0 (0, 0, 0) ≠ 0 :=
  ⟨by decide,
    foreground_not_background_label 1 1 1 (fun _ => 5) 0 (fun _ => 0) 0 (by decide)
      (0, 0, 0) (by decide) (by decide)⟩

/-- C8 (amended): background voxels are always written the background label;
the statistics entry at index `L_bg` carrying the background colour is
guaranteed only for `L_bg = 0` (for a nonzero `L_bg`, index `L_bg` need not
even exist). -/
theorem background_entry :
    ∀ (width height depth : ℕ) (img : Coord → ℕ)
      (backgroundColor : ℕ) (out0 : Coord → ℕ) (backgroundLabel : ℕ),
      fccOk width height depth img backgroundColor out0 backgroundLabel = true →
      (∀ p, inVolume width height depth p → img p = backgroundColor →
        fccOut width height depth img backgroundColor out0 backgroundLabel p
          = backgroundLabel)
      ∧ (backgroundLabel = 0 →
        ((fccStats width height depth img backgroundColor out0 backgroundLabel)[backgroundLabel]?).map
            ComponentStatistics.inputLabel_ = some backgroundColor) := by
  intro width height depth img backgroundColor out0 backgroundLabel hokb
  unfold fccOk at hokb
  cases h : findConnectedComponents3d width height depth img backgroundColor out0
      backgroundLabel with
  | error e =>
    rw [h] at hokb
    cases hokb
  | ok r =>
    rcases r with ⟨out, stats⟩
    have hout : fccOut width height depth img backgroundColor out0 backgroundLabel
        = out := by
      unfold fccOut
      rw [h]
    have hstats : fccStats width height depth img backgroundColor out0 backgroundLabel
        = stats := by
      unfold fccStats
      rw [h]
    obtain ⟨s1, lab, _, _, _, _, hbgout, _, _, hentry, _, _⟩ := fcc_master h
    constructor
    · intro p hp hbg
      rw [hout]
      exact hbgout p hp hbg
    · intro hL0
      rw [hstats, hL0]
      exact hentry hL0

theorem background_entry_cex :
    fccOk 1 1 1 (fun _ => 5) 0 (fun _ => 0) 7 = true
    ∧ (fccStats 1 1 1 (fun _ => 5) 0 (fun _ => 0) 7).length = 1
    ∧ ((fccStats 1 1 1 (fun _ => 5) 0 (fun _ => 0) 7)[(7 : ℕ)]?).map
        ComponentStatistics.inputLabel_ = none := by
  refine ⟨by decide, by decide, by decide⟩

theorem background_entry_witness :
    fccOk 1 1 1 (fun _ => 5) 0 (fun _ => 0) 0 = true
    ∧ ((fccStats 1 1 1 (fun _ => 5) 0 (fun _ => 0) 0)[(0 : ℕ)]?).map
        ComponentStatistics.inputLabel_ = some 0 :=
  ⟨by decide,
    (background_entry 1 1 1 (fun _ => 5) 0 (fun _ => 0) 0 (by decide)).2 rfl⟩

/-- C9 (amended): for every successful call the pixel counts summed over the
statistics equal `W*H*D`; the statistics length equals the maximum assigned
label plus one when the background label is `0` and the volume is nonempty
(for a nonzero background label the skip over it breaks the identity). -/
theorem components_count :
    ∀ (width height depth : ℕ) (img : Coord → ℕ)
      (backgroundColor : ℕ) (out0 : Coord → ℕ) (backgroundLabel : ℕ),
      fccOk width height depth img backgroundColor out0 backgroundLabel = true →
      sumCounts (fccStats width height depth img backgroundColor out0 backgroundLabel)
        = width * height * depth
      ∧ (backgroundLabel = 0 → 0 < width * height * depth →
        (fccStats width height depth img backgroundColor out0 backgroundLabel).length
          = maxLabel width height depth
              (fccOut width height depth img backgroundColor out0 backgroundLabel) + 1) := by
  intro width height depth img backgroundColor out0 backgroundLabel hokb
  unfold fccOk at hokb
  cases h : findConnectedComponents3d width height depth img backgroundColor out0
      backgroundLabel with
  | error e =>
    rw [h] at hokb
    cases hokb
  | ok r =>
    rcases r with ⟨out, stats⟩
    have hout : fccOut width height depth img backgroundColor out0 backgroundLabel
        = out := by
      unfold fccOut
      rw [h]
    have hstats : fccStats width height depth img backgroundColor out0 backgroundLabel
        = stats := by
      unfold fccStats
      rw [h]
    obtain ⟨s1, lab, _, _, hlen, hsum, _, _, _, _, hbound, hattain⟩ := fcc_master h
    rw [hstats, hout]
    refine ⟨hsum, ?_⟩
    intro hL0 hvol
    obtain ⟨p0, hp0, hp0v⟩ := hattain hL0 hvol
    have hlab1 : 1 ≤ lab := by omega
    have hub : maxLabel width height depth out ≤ lab - 1 := by
      refine foldl_max_le ?_ 0 (by omega)
      intro x hx
      obtain ⟨p, hpmem, hpx⟩ := List.mem_map.mp hx
      have := hbound hL0 p (mem_scanOrder.mp hpmem)
      omega
    have hlb : lab - 1 ≤ maxLabel width height depth out := by
      have hmem : out p0 ∈ (scanOrder width height depth).map out :=
        List.mem_map.mpr ⟨p0, mem_scanOrder.mpr hp0, rfl⟩
      have := le_foldl_max hmem 0
      unfold maxLabel
      omega
    have : maxLabel width height depth out = lab - 1 := le_antisymm hub hlb
    rw [hlen, this]
    omega

theorem components_count_cex :
    fccOk 1 1 1 (fun _ => 5) 0 (fun _ => 0) 1 = true
    ∧ (fccStats 1 1 1 (fun _ => 5) 0 (fun _ => 0) 1).length = 2
    ∧ maxLabel 1 1 1 (fccOut 1 1 1 (fun _ => 5) 0 (fun _ => 0) 1) = 0 := by
  refine ⟨by decide, by decide, by decide⟩

theorem components_count_witness :
    fccOk 1 1 1 (fun _ => 5) 0 (fun _ => 0) 0 = true
    ∧ sumCounts (fccStats 1 1 1 (fun _ => 5) 0 (fun _ => 0) 0) = 1 * 1 * 1
    ∧ (fccStats 1 1 1 (fun _ => 5) 0 (fun _ => 0) 0).length
        = maxLabel 1 1 1 (fccOut 1 1 1 (fun _ => 5) 0 (fun _ => 0) 0) + 1 :=
  ⟨by decide,
    (components_count 1 1 1 (fun _ => 5) 0 (fun _ => 0) 0 (by decide)).1,
    (components_count 1 1 1 (fun _ => 5) 0 (fun _ => 0) 0 (by decide)).2 rfl (by decide)⟩

theorem convolve_reference_getD (input : ℕ → ℚ) (width : ℕ) (u : ℕ) (hu : u < width) :
    (convolve_reference input width [1] 0).getD u 0 = input u := by
  unfold convolve_reference
  rw [getD_map_range]
  rw [if_pos (by omega : u < width - 2 * 0)]
  norm_num [List.range_succ]

theorem mirrorEdges_zero (row : ℕ → ℚ) (width : ℕ) : mirrorEdges row 0 width = row := by
  simp [mirrorEdges]

theorem foldl_updFn_values {α : Type} (buffer : ℕ → α) (g : ℕ → ℕ) (w : ℕ → α) :
    ∀ (l : List ℕ), (∀ u ∈ l, w u = buffer (g u)) →
    ∀ (b : ℕ → α), (∀ j, b j = buffer j) →
    ∀ j, (l.foldl (fun bb u => updFn bb (g u) (w u)) b) j = buffer j := by
  intro l
  induction l with
  | nil =>
    intro _ b hb j
    exact hb j
  | cons u t ih =>
    intro hw b hb j
    rw [List.foldl_cons]
    refine ih (fun x hx => hw x (List.mem_cons_of_mem u hx)) _ ?_ j
    intro j2
    rw [updFn_char]
    split_ifs with h
    · rw [h]
      exact hw u (List.mem_cons_self u t)
    · exact hb j2

theorem convolve_identity {α : Type} (reader : α → ℚ) (writer : ℚ → α)
    (width height : ℕ) (buffer : ℕ → α) (base hop stride : ℕ)
    (hid : ∀ i, writer (reader (buffer i)) = buffer i) :
    ∀ (b : ℕ → α), (∀ j, b j = buffer j) →
    ∀ j, convolve reader writer width height b base hop stride [1] 0 j = buffer j := by
  have hmain : ∀ (l : List ℕ) (b : ℕ → α), (∀ j, b j = buffer j) →
      ∀ j, (l.foldl
        (fun buf v =>
          let inputRow := mirrorEdges (gatherRow reader buf base hop stride v 0 width) 0 width
          let outputRow := convolve_reference inputRow (width + 2 * 0) [1] 0
          (List.range width).foldl
            (fun b u => updFn b (base + v * stride + u * hop) (writer (outputRow.getD u 0)))
            buf) b) j = buffer j := by
    intro l
    induction l with
    | nil =>
      intro b hb j
      exact hb j
    | cons v t ih =>
      intro b hb j
      rw [List.foldl_cons]
      refine ih _ ?_ j
      intro j2
      refine foldl_updFn_values buffer (fun u => base + v * stride + u * hop)
        (fun u => writer ((convolve_reference
          (mirrorEdges (gatherRow reader b base hop stride v 0 width) 0 width)
          (width + 2 * 0) [1] 0).getD u 0))
        (List.range width) ?_ b hb j2
      intro u hu
      have hu2 : u < width := List.mem_range.mp hu
      dsimp only
      rw [convolve_reference_getD _ _ _ (by omega)]
      rw [mirrorEdges_zero]
      unfold gatherRow
      rw [if_pos ⟨Nat.zero_le u, by omega⟩]
      rw [Nat.sub_zero]
      rw [hb (base + v * stride + u * hop)]
      exact hid _
  exact fun b hb => hmain (List.range height) b hb

theorem foldl_convolve_identity {α : Type} (reader : α → ℚ) (writer : ℚ → α)
    (W H : ℕ) (hopp stridep : ℕ) (basef : ℕ → ℕ) (buffer : ℕ → α)
    (hid : ∀ i, writer (reader (buffer i)) = buffer i) :
    ∀ (l : List ℕ) (b : ℕ → α), (∀ j, b j = buffer j) →
    ∀ j, (l.foldl (fun buf z =>
      convolve reader writer W H buf (basef z) hopp stridep [1] 0) b) j = buffer j := by
  intro l
  induction l with
  | nil =>
    intro b hb j
    exact hb j
  | cons z t ih =>
    intro b hb j
    rw [List.foldl_cons]
    exact ih _ (convolve_identity reader writer W H buffer (basef z) hopp stridep hid b hb) j

theorem convolve1d_identity {α : Type} (reader : α → ℚ) (writer : ℚ → α)
    (width height depth : ℕ) (buffer : ℕ → α) (leap stride hop : ℕ)
    (direction : ℕ) (hdir : direction < 3)
    (hid : ∀ i, writer (reader (buffer i)) = buffer i) :
    ∃ buf', convolve1d reader writer width height depth buffer leap stride hop
        direction [1] 0 = .ok buf' ∧ ∀ j, buf' j = buffer j := by
  interval_cases direction
  · exact ⟨_, rfl, fun j => foldl_convolve_identity reader writer width height hop stride
      (fun z => z * leap) buffer hid (List.range depth) buffer (fun _ => rfl) j⟩
  · exact ⟨_, rfl, fun j => foldl_convolve_identity reader writer height width stride hop
      (fun z => z * leap) buffer hid (List.range depth) buffer (fun _ => rfl) j⟩
  · exact ⟨_, rfl, fun j => foldl_convolve_identity reader writer depth width leap hop
      (fun y => y * stride) buffer hid (List.range height) buffer (fun _ => rfl) j⟩

theorem writerUChar_reader (v : ℕ) (hv : v ≤ 255) : writerUChar (readerUChar v) = v := by
  unfold writerUChar readerUChar
  by_cases h0 : (v : ℚ) ≤ 0
  · have hv0 : v = 0 := by exact_mod_cast le_antisymm h0 (Nat.cast_nonneg v)
    rw [if_pos h0, hv0]
  · rw [if_neg h0]
    have h255 : ¬(255 < (v : ℚ)) := by
      push_cast
      exact_mod_cast Nat.not_lt.mpr hv
    rw [if_neg h255]
    unfold cTrunc
    rw [if_pos (by push_cast; positivity)]
    have hfl : ⌊(v : ℚ) + 1 / 2⌋ = (v : ℤ) := by
      rw [Int.floor_eq_iff]
      constructor
      · push_cast
        norm_num
      · push_cast
        norm_num
    rw [hfl]
    simp

theorem writerShort_reader (x : ℤ) (h0 : 0 ≤ x) (h1 : x ≤ 32767) :
    writerShort (readerShort x) = x := by
  unfold writerShort readerShort
  have hlo : ¬((x : ℚ) ≤ -32768) := by
    push_cast
    intro h
    have : x ≤ -32768 := by exact_mod_cast h
    omega
  rw [if_neg hlo]
  have hhi : ¬(32767 < (x : ℚ)) := by
    push_cast
    intro h
    have : 32767 < x := by exact_mod_cast h
    omega
  rw [if_neg hhi]
  unfold cTrunc
  rw [if_pos (by push_cast; positivity)]
  rw [Int.floor_eq_iff]
  constructor
  · norm_num
  · push_cast
    norm_num

/-- C2 (amended): the radius-0 kernel `[1]` leaves the buffer bit-identical
for `float` pixels always, for `unsigned char` pixels (values at most 255)
always, and for `short` pixels only when every value is nonnegative — the
`writerT<short>` rounding `(short)(x + 0.5f)` truncates toward zero, moving
every negative value up by one-half before truncation. -/
theorem convolve_radius0_identity :
    (∀ (width height depth : ℕ) (buffer : ℕ → ℚ) (direction : ℕ), direction < 3 →
      ∃ buf', convolve1dFloat width height depth buffer direction [1] 0 = .ok buf'
        ∧ ∀ j, buf' j = buffer j)
    ∧ (∀ (width height depth : ℕ) (buffer : ℕ → ℕ), (∀ i, buffer i ≤ 255) →
      ∀ direction, direction < 3 →
      ∃ buf', convolve1dUChar width height depth buffer direction [1] 0 = .ok buf'
        ∧ ∀ j, buf' j = buffer j)
    ∧ (∀ (width height depth : ℕ) (buffer : ℕ → ℤ),
        (∀ i, 0 ≤ buffer i ∧ buffer i ≤ 32767) →
      ∀ direction, direction < 3 →
      ∃ buf', convolve1dShort width height depth buffer direction [1] 0 = .ok buf'
        ∧ ∀ j, buf' j = buffer j) := by
  refine ⟨?_, ?_, ?_⟩
  · intro width height depth buffer direction hdir
    exact convolve1d_identity _ _ width height depth buffer (width * height) width 1
      direction hdir (fun i => rfl)
  · intro width height depth buffer hbuf direction hdir
    exact convolve1d_identity _ _ width height depth buffer (width * height) width 1
      direction hdir (fun i => writerUChar_reader _ (hbuf i))
  · intro width height depth buffer hbuf direction hdir
    exact convolve1d_identity _ _ width height depth buffer (width * height) width 1
      direction hdir (fun i => writerShort_reader _ (hbuf i).1 (hbuf i).2)

theorem mirror_partial (row : ℕ → ℚ) (r W : ℕ) (hrW : r ≤ W) :
    ∀ k, k ≤ r → ∀ j,
      ((List.range k).foldl
        (fun rw u =>
          let rw1 := updFn rw (r - 1 - u) (rw (r + u))
          updFn rw1 (r + W + u) (rw1 (r + W - 1 - u))) row) j
      = if r - k ≤ j ∧ j < r then row (2 * r - 1 - j)
        else if r + W ≤ j ∧ j < r + W + k then row (2 * (r + W) - 1 - j)
        else row j := by
  intro k
  induction k with
  | zero =>
    intro _ j
    rw [List.range_zero, List.foldl_nil]
    split_ifs with h1 h2 <;> first | rfl | (exfalso; omega)
  | succ k ih =>
    intro hk j
    have hkr : k < r := hk
    have hkW : k < W := lt_of_lt_of_le hkr hrW
    have hP := ih (le_of_lt hkr)
    rw [List.range_succ, List.foldl_append, List.foldl_cons, List.foldl_nil]
    dsimp only
    have hread1 : ((List.range k).foldl
        (fun rw u =>
          let rw1 := updFn rw (r - 1 - u) (rw (r + u))
          updFn rw1 (r + W + u) (rw1 (r + W - 1 - u))) row) (r + k) = row (r + k) := by
      rw [hP (r + k), if_neg (by omega), if_neg (by omega)]
    have hrw1 : ∀ j2, updFn ((List.range k).foldl
        (fun rw u =>
          let rw1 := updFn rw (r - 1 - u) (rw (r + u))
          updFn rw1 (r + W + u) (rw1 (r + W - 1 - u))) row) (r - 1 - k)
          (((List.range k).foldl
            (fun rw u =>
              let rw1 := updFn rw (r - 1 - u) (rw (r + u))
              updFn rw1 (r + W + u) (rw1 (r + W - 1 - u))) row) (r + k)) j2
        = if j2 = r - 1 - k then row (r + k)
          else if r - k ≤ j2 ∧ j2 < r then row (2 * r - 1 - j2)
          else if r + W ≤ j2 ∧ j2 < r + W + k then row (2 * (r + W) - 1 - j2)
          else row j2 := by
      intro j2
      rw [updFn_char, hread1]
      by_cases h1 : j2 = r - 1 - k
      · rw [if_pos h1, if_pos h1]
      · rw [if_neg h1, if_neg h1]
        exact hP j2
    rw [updFn_char]
    by_cases hA : j = r + W + k
    · rw [if_pos hA, hrw1 (r + W - 1 - k)]
      rw [if_neg (by omega), if_neg (by omega), if_neg (by omega)]
      rw [if_neg (by omega), if_pos (by omega)]
      congr 1
      omega
    · rw [if_neg hA, hrw1 j]
      by_cases hB : j = r - 1 - k
      · rw [if_pos hB, if_pos (by omega)]
        congr 1
        omega
      · rw [if_neg hB]
        by_cases hC : r - k ≤ j ∧ j < r
        · rw [if_pos hC, if_pos (by omega)]
        · rw [if_neg hC]
          by_cases hD : r + W ≤ j ∧ j < r + W + k
          · rw [if_pos hD, if_neg (by omega), if_pos (by omega)]
          · rw [if_neg hD, if_neg (by omega), if_neg (by omega)]

theorem mirrorEdges_spec (row : ℕ → ℚ) (r W : ℕ) (hrW : r ≤ W) :
    (∀ i, i < r → mirrorEdges row r W (r - 1 - i) = row (r + i))
    ∧ (∀ i, i < r → mirrorEdges row r W (r + W + i) = row (r + W - 1 - i))
    ∧ (∀ j, r ≤ j → j < r + W → mirrorEdges row r W j = row j) := by
  have hP := mirror_partial row r W hrW r le_rfl
  refine ⟨?_, ?_, ?_⟩
  · intro i hi
    unfold mirrorEdges
    rw [hP (r - 1 - i), if_pos (by omega)]
    congr 1
    omega
  · intro i hi
    unfold mirrorEdges
    rw [hP (r + W + i), if_neg (by omega), if_pos (by omega)]
    congr 1
    omega
  · intro j hj1 hj2
    unfold mirrorEdges
    rw [hP j, if_neg (by omega), if_neg (by omega)]

/-- The spec example row `[10, 20, 30, 40]`. -/
def row4 : ℕ → ℚ := fun j => ([10, 20, 30, 40] : List ℚ).getD j 0

theorem row4_convolved :
    ∃ buf', convolve1dFloat 4 1 1 row4 0 [1/4, 1/2, 1/4] 1 = .ok buf'
      ∧ buf' 0 = 25/2 ∧ buf' 1 = 20 ∧ buf' 2 = 30 ∧ buf' 3 = 75/2 := by
  refine ⟨_, rfl, ?_, ?_, ?_, ?_⟩ <;>
    norm_num [convolve1dFloat, convolve1d, convolve, mirrorEdges, gatherRow,
      convolve_reference, readerFloat, writerFloat, updFn, row4, List.range_succ]

/-- C5 (amended): the mirror loop satisfies exactly the spec's index formula
`left[r-1-i] = row[r+i]`, `right[r+W+i] = row[r+W-1-i]` — which duplicates the
boundary sample — so the row `[10, 20, 30, 40]` with kernel `[1/4, 1/2, 1/4]`
convolves to `[25/2, 20, 30, 75/2]`, not to the claimed `[15, 20, 30, 35]`. -/
theorem mirror_convolve :
    (∀ (row : ℕ → ℚ) (r W : ℕ), r ≤ W →
      (∀ i, i < r → mirrorEdges row r W (r - 1 - i) = row (r + i))
      ∧ (∀ i, i < r → mirrorEdges row r W (r + W + i) = row (r + W - 1 - i))
      ∧ (∀ j, r ≤ j → j < r + W → mirrorEdges row r W j = row j))
    ∧ (∃ buf', convolve1dFloat 4 1 1 row4 0 [1/4, 1/2, 1/4] 1 = .ok buf'
        ∧ buf' 0 = 25/2 ∧ buf' 1 = 20 ∧ buf' 2 = 30 ∧ buf' 3 = 75/2) :=
  ⟨fun row r W hrW => mirrorEdges_spec row r W hrW, row4_convolved⟩

theorem mirror_convolve_cex :
    ∃ buf', convolve1dFloat 4 1 1 row4 0 [1/4, 1/2, 1/4] 1 = .ok buf'
      ∧ buf' 0 ≠ 15 ∧ buf' 3 ≠ 35 := by
  obtain ⟨buf', h1, h2, _, _, h5⟩ := row4_convolved
  refine ⟨buf', h1, ?_, ?_⟩
  · rw [h2]
    norm_num
  · rw [h5]
    norm_num

theorem mirror_convolve_witness :
    (1 : ℕ) ≤ 4
    ∧ ((∀ i, i < 1 → mirrorEdges row4 1 4 (1 - 1 - i) = row4 (1 + i))
      ∧ (∀ i, i < 1 → mirrorEdges row4 1 4 (1 + 4 + i) = row4 (1 + 4 - 1 - i))
      ∧ (∀ j, 1 ≤ j → j < 1 + 4 → mirrorEdges row4 1 4 j = row4 j)) :=
  ⟨by norm_num, mirror_convolve.1 row4 1 4 (by norm_num)⟩

/-- C6 (amended): the kernel-size check lives only in the `SseConvolver`
constructor, which throws exactly when `length <= kernel_length`; `convolve`
never runs it (the constructor call is commented out), so the active path
returns normally for every direction whatever the kernel size. -/
theorem kernel_too_large :
    (∀ (kernel : List ℚ) (kernelLength length : ℕ),
      (sseConvolverInit kernel kernelLength length
          = .error "Kernel too big for image."
        ↔ length ≤ kernelLength))
    ∧ (∀ (width height depth : ℕ) (buffer : ℕ → ℚ) (direction : ℕ)
        (kernel : List ℚ) (kernelRadius : ℕ), direction < 3 →
        ∃ buf', convolve1dFloat width height depth buffer direction kernel kernelRadius
          = .ok buf') := by
  constructor
  · intro kernel kernelLength length
    unfold sseConvolverInit
    constructor
    · intro h
      by_cases hc : length ≤ kernelLength
      · exact hc
      · rw [if_neg hc] at h
        cases h
    · intro h
      rw [if_pos h]
  · intro width height depth buffer direction kernel kernelRadius hdir
    unfold convolve1dFloat convolve1d
    interval_cases direction
    · exact ⟨_, rfl⟩
    · exact ⟨_, rfl⟩
    · exact ⟨_, rfl⟩

theorem kernel_too_large_cex :
    (∃ buf', convolve1dFloat 1 1 1 (fun _ => 1) 0 [1, 1, 1] 1 = .ok buf')
    ∧ (1 : ℕ) < 2 * 1 + 1 := by
  refine ⟨⟨_, rfl⟩, by norm_num⟩

theorem kernel_too_large_witness :
    (sseConvolverInit [1] 5 3 = .error "Kernel too big for image." ↔ 3 ≤ 5)
    ∧ ∃ buf', convolve1dFloat 2 2 2 (fun _ => 0) 0 [1, 1, 1] 1 = .ok buf' :=
  ⟨kernel_too_large.1 [1] 5 3,
    kernel_too_large.2 2 2 2 (fun _ => 0) 0 [1, 1, 1] 1 (by norm_num)⟩

theorem convolve_radius0_identity_cex :
    ∃ buf', convolve1dShort 1 1 1 (fun _ => -1) 0 [1] 0 = .ok buf'
      ∧ buf' 0 = 0 ∧ (fun _ => (-1 : ℤ)) 0 ≠ 0 := by
  refine ⟨_, rfl, ?_, by norm_num⟩
  norm_num [convolve1dShort, convolve1d, convolve, mirrorEdges, gatherRow,
    convolve_reference, readerShort, writerShort, cTrunc, updFn, List.range_succ]

theorem convolve_radius0_identity_witness :
    (∀ i : ℕ, (0 : ℤ) ≤ (fun _ => (5 : ℤ)) i ∧ (fun _ => (5 : ℤ)) i ≤ 32767)
    ∧ ∃ buf', convolve1dShort 1 1 1 (fun _ => 5) 0 [1] 0 = .ok buf'
        ∧ ∀ j, buf' j = (fun _ => (5 : ℤ)) j :=
  ⟨fun i => by norm_num,
    convolve_radius0_identity.2.2 1 1 1 (fun _ => 5) (fun i => by norm_num) 0
      (by norm_num)⟩
end CreateDataset
